import Mathlib

/-!
Verification of the Engine.IO / Socket.IO server (`sio` package).

Shallow embedding of the Python sources:

* `sio/socketio/protocol.py` — Socket.IO v5 packet codec and per-connection
  parser (placeholder-based binary attachment protocol);
* `sio/socketio/socket.py`   — per-namespace socket, ack bookkeeping;
* `sio/socketio/server.py`   — namespace/socket registry and packet dispatch;
* `sio/engineio/session.py`  — session outbound queue and payload drain;
* `sio/engineio/packets.py`  — Engine.IO HTTP payload codec;
* `sio/engineio/polling.py`  — HTTP long-polling POST handler.

Python strings are modelled as `List Char`, bytes as `List Nat`, JSON values
as the inductive `JData` (JSON numbers are restricted to integers, which is
the fragment the protocol claims exercise; `json.dumps` uses the default
`ensure_ascii=True` escaping, which is modelled exactly, including surrogate
pairs).  Stateful methods become explicit state-passing functions.
-/

set_option maxHeartbeats 1600000

namespace Sio

/-! ### Characters, digits and numbers -/

def isDig (c : Char) : Bool := 48 ≤ c.toNat && c.toNat ≤ 57

def digVal (c : Char) : Nat := c.toNat - 48

def digitChar (n : Nat) : Char := Char.ofNat (48 + n)

/-- Fuel-driven helper for `natDigits` (fuel keeps the recursion structural
so that terms reduce inside `decide`). -/
def natDigitsAux : Nat → Nat → List Char
  | 0, _ => []
  | fuel + 1, n =>
    if n < 10 then [digitChar n]
    else natDigitsAux fuel (n / 10) ++ [digitChar (n % 10)]

/-- Decimal digits of `n`, most significant first (Python `str(n)` for
natural `n`). -/
def natDigits (n : Nat) : List Char := natDigitsAux (n + 1) n

/-- Python `str(i)` for an integer. -/
def intChars (i : Int) : List Char :=
  if i < 0 then '-' :: natDigits i.natAbs else natDigits i.natAbs

/-- Longest prefix of decimal digits, together with the remainder. -/
def spanDigits : List Char → List Char × List Char
  | [] => ([], [])
  | c :: r =>
    if isDig c then
      let p := spanDigits r
      (c :: p.1, p.2)
    else ([], c :: r)

/-- Value of a digit string, with accumulator (`int(s)` on an all-digit
string). -/
def valFold : Nat → List Char → Nat
  | acc, [] => acc
  | acc, c :: r => valFold (acc * 10 + digVal c) r

def valOfDigits (ds : List Char) : Nat := valFold 0 ds

/-- Head of the list is not a decimal digit (vacuously true for `[]`). -/
def notDigHead : List Char → Prop
  | [] => True
  | c :: _ => isDig c = false

/-! ### UTF-8 byte lengths (for `str.encode("utf-8")` sizes) -/

def utf8CharLen (c : Char) : Nat :=
  if c.toNat < 0x80 then 1
  else if c.toNat < 0x800 then 2
  else if c.toNat < 0x10000 then 3
  else 4

/-- Number of bytes of the UTF-8 encoding of a string. -/
def utf8Len (s : List Char) : Nat := (s.map utf8CharLen).sum

/-! ### Hexadecimal (for JSON `\uXXXX` escapes) -/

def hexDigitChar (n : Nat) : Char :=
  if n < 10 then digitChar n else Char.ofNat (87 + n)

def hexVal (c : Char) : Option Nat :=
  if isDig c then some (digVal c)
  else if 97 ≤ c.toNat && c.toNat ≤ 102 then some (c.toNat - 87)
  else if 65 ≤ c.toNat && c.toNat ≤ 70 then some (c.toNat - 55)
  else none

/-- Four lowercase hex digits of `n < 0x10000` (as in Python `"\\u%04x"`). -/
def hex4 (n : Nat) : List Char :=
  [hexDigitChar (n / 4096 % 16), hexDigitChar (n / 256 % 16),
   hexDigitChar (n / 16 % 16), hexDigitChar (n % 16)]

/-! ### JSON values

Model of the Python values flowing through the Socket.IO codec: JSON
scalars, arrays, objects (association lists in insertion order, as Python
dicts preserve it), plus `bin` for `bytes` payloads.  JSON numbers are
modelled as integers. -/

mutual
inductive JData where
  | null
  | bool (b : Bool)
  | num (n : Int)
  | str (s : List Char)
  | bin (bs : List Nat)
  | arr (xs : JArr)
  | obj (fs : JObj)
  deriving DecidableEq
inductive JArr where
  | anil
  | acons (hd : JData) (tl : JArr)
  deriving DecidableEq
inductive JObj where
  | onil
  | ocons (k : List Char) (v : JData) (tl : JObj)
  deriving DecidableEq
end

/-- Python `dict.get` (keys are unique in any dict, so first match). -/
def objGet : JObj → List Char → Option JData
  | .onil, _ => none
  | .ocons k v t, key => if k = key then some v else objGet t key

def objKeys : JObj → List (List Char)
  | .onil => []
  | .ocons k _ t => k :: objKeys t

def noDupList : List (List Char) → Bool
  | [] => true
  | k :: r => (!r.contains k) && noDupList r

/-- Key `"_placeholder"` (protocol.py `PLACEHOLDER_KEY`). -/
def placeholderKey : List Char :=
  ['_', 'p', 'l', 'a', 'c', 'e', 'h', 'o', 'l', 'd', 'e', 'r']

/-- Key `"num"` (protocol.py `PLACEHOLDER_NUM`). -/
def numKey : List Char := ['n', 'u', 'm']

/-- The placeholder object `\x7b"_placeholder": true, "num": i\x7d`. -/
def placeholderObj (i : Nat) : JData :=
  .obj (.ocons placeholderKey (.bool true) (.ocons numKey (.num i) .onil))

/-- Python `isinstance(x, int)` view of a JSON value: `bool` is a subclass of
`int` in Python, so `true`/`false` count as `1`/`0`. -/
def pyInt : JData → Option Int
  | .num n => some n
  | .bool b => some (if b then 1 else 0)
  | _ => none

/-! ### Binary placeholder deconstruction / reconstruction
(protocol.py `_deconstruct_data` / `_reconstruct_data`) -/

mutual
/-- The `_walk` closure of `_deconstruct_data`: the mutable `attachments`
list becomes an explicit accumulator. -/
def walkDecon : JData → List (List Nat) → JData × List (List Nat)
  | .bin bs, acc => (placeholderObj acc.length, acc ++ [bs])
  | .arr xs, acc =>
    let p := walkDeconA xs acc
    (.arr p.1, p.2)
  | .obj fs, acc =>
    let p := walkDeconO fs acc
    (.obj p.1, p.2)
  | d, acc => (d, acc)
def walkDeconA : JArr → List (List Nat) → JArr × List (List Nat)
  | .anil, acc => (.anil, acc)
  | .acons h t, acc =>
    let p := walkDecon h acc
    let q := walkDeconA t p.2
    (.acons p.1 q.1, q.2)
def walkDeconO : JObj → List (List Nat) → JObj × List (List Nat)
  | .onil, acc => (.onil, acc)
  | .ocons k v t, acc =>
    let p := walkDecon v acc
    let q := walkDeconO t p.2
    (.ocons k p.1 q.1, q.2)
end

/-- `_deconstruct_data(data)`: returns `(data_without_binary, attachments)`. -/
def deconstruct_data (d : JData) : JData × List (List Nat) := walkDecon d []

/-- Test of `_reconstruct_data`'s walk: `isinstance(obj, dict) and
obj.get(PLACEHOLDER_KEY) is True`. -/
def isPhLike (fs : JObj) : Bool := objGet fs placeholderKey = some (.bool true)

mutual
/-- The `_walk` closure of `_reconstruct_data`. -/
def walkRecon (atts : List (List Nat)) : JData → JData
  | .obj fs =>
    if isPhLike fs then
      match objGet fs numKey with
      | some v =>
        match pyInt v with
        | some i =>
          if 0 ≤ i ∧ i < (atts.length : Int) then .bin (atts.getD i.toNat [])
          else .null
        | none => .null
      | none => .null
    else .obj (walkReconO atts fs)
  | .arr xs => .arr (walkReconA atts xs)
  | d => d
def walkReconA (atts : List (List Nat)) : JArr → JArr
  | .anil => .anil
  | .acons h t => .acons (walkRecon atts h) (walkReconA atts t)
def walkReconO (atts : List (List Nat)) : JObj → JObj
  | .onil => .onil
  | .ocons k v t => .ocons k (walkRecon atts v) (walkReconO atts t)
end

/-- `_reconstruct_data(data, attachments)`. -/
def reconstruct_data (d : JData) (atts : List (List Nat)) : JData :=
  walkRecon atts d

mutual
/-- No `bytes` value occurs anywhere in the data. -/
def binFree : JData → Bool
  | .bin _ => false
  | .arr xs => binFreeA xs
  | .obj fs => binFreeO fs
  | _ => true
def binFreeA : JArr → Bool
  | .anil => true
  | .acons h t => binFree h && binFreeA t
def binFreeO : JObj → Bool
  | .onil => true
  | .ocons _ v t => binFree v && binFreeO t
end

mutual
/-- No sub-dict of the data is already shaped like a placeholder (would be
clobbered by `_reconstruct_data`). -/
def noPh : JData → Bool
  | .arr xs => noPhA xs
  | .obj fs => !isPhLike fs && noPhO fs
  | _ => true
def noPhA : JArr → Bool
  | .anil => true
  | .acons h t => noPh h && noPhA t
def noPhO : JObj → Bool
  | .onil => true
  | .ocons _ v t => noPh v && noPhO t
end

mutual
/-- Well-formedness inherited from Python dicts: every object has pairwise
distinct keys. -/
def wfKeys : JData → Bool
  | .arr xs => wfKeysA xs
  | .obj fs => noDupList (objKeys fs) && wfKeysO fs
  | _ => true
def wfKeysA : JArr → Bool
  | .anil => true
  | .acons h t => wfKeys h && wfKeysA t
def wfKeysO : JObj → Bool
  | .onil => true
  | .ocons _ v t => wfKeys v && wfKeysO t
end

/-! ### JSON serialisation (`json.dumps(data, separators=(",", ":"))`) -/

/-- Escaping of one character by Python's default (`ensure_ascii=True`) JSON
encoder: printable ASCII except `"` and backslash is emitted verbatim,
`\n \r \t \b \f` use short escapes, everything else becomes `\uXXXX`
(a surrogate pair for code points above `0xFFFF`). -/
def escChar (c : Char) : List Char :=
  if c = '"' then ['\\', '"']
  else if c = '\\' then ['\\', '\\']
  else if c = '\n' then ['\\', 'n']
  else if c = '\r' then ['\\', 'r']
  else if c = '\t' then ['\\', 't']
  else if c.toNat = 8 then ['\\', 'b']
  else if c.toNat = 12 then ['\\', 'f']
  else if c.toNat < 0x20 then '\\' :: 'u' :: hex4 c.toNat
  else if c.toNat < 0x7f then [c]
  else if c.toNat < 0x10000 then '\\' :: 'u' :: hex4 c.toNat
  else
    ('\\' :: 'u' :: hex4 (0xd800 + (c.toNat - 0x10000) / 0x400)) ++
    ('\\' :: 'u' :: hex4 (0xdc00 + (c.toNat - 0x10000) % 0x400))

/-- JSON string literal for `s` (`json.dumps` of a `str`). -/
def escStr (s : List Char) : List Char :=
  '"' :: s.flatMap escChar ++ ['"']

mutual
/-- `json.dumps(d, separators=(",", ":"))`; `none` models the `TypeError`
raised on `bytes` (never reached by the encoder, which deconstructs
binary data first). -/
def dumpVal : JData → Option (List Char)
  | .null => some ['n', 'u', 'l', 'l']
  | .bool true => some ['t', 'r', 'u', 'e']
  | .bool false => some ['f', 'a', 'l', 's', 'e']
  | .num n => some (intChars n)
  | .str s => some (escStr s)
  | .bin _ => none
  | .arr xs => (dumpElems xs).map (fun cs => '[' :: cs ++ [']'])
  | .obj fs => (dumpMembers fs).map (fun cs => '\x7b' :: cs ++ ['\x7d'])
def dumpElems : JArr → Option (List Char)
  | .anil => some []
  | .acons h .anil => dumpVal h
  | .acons h (.acons h2 t) =>
    (dumpVal h).bind fun cs =>
      (dumpElems (.acons h2 t)).map fun cs2 => cs ++ ',' :: cs2
def dumpMembers : JObj → Option (List Char)
  | .onil => some []
  | .ocons k v .onil => (dumpVal v).map fun cs => escStr k ++ ':' :: cs
  | .ocons k v (.ocons k2 v2 t) =>
    (dumpVal v).bind fun cs =>
      (dumpMembers (.ocons k2 v2 t)).map fun cs2 =>
        escStr k ++ ':' :: cs ++ ',' :: cs2
end

/-! ### JSON parsing (`json.loads`)

Recursive-descent model of `json.loads` on the whitespace-free integer
fragment (the only inputs produced by the peer encoder).  Deviations from
CPython, none reachable from the claims: no float literals, no inter-token
whitespace, and lone UTF-16 surrogate escapes are rejected instead of
producing non-scalar strings (Lean `Char` cannot hold them). -/

def unescChar (c : Char) : Option Char :=
  if c = '"' then some '"'
  else if c = '\\' then some '\\'
  else if c = '/' then some '/'
  else if c = 'b' then some (Char.ofNat 8)
  else if c = 'f' then some (Char.ofNat 12)
  else if c = 'n' then some '\n'
  else if c = 'r' then some '\r'
  else if c = 't' then some '\t'
  else none

def hexQuad (a b c d : Char) : Option Nat :=
  match hexVal a, hexVal b, hexVal c, hexVal d with
  | some x, some y, some z, some w => some (x * 4096 + y * 256 + z * 16 + w)
  | _, _, _, _ => none

/-- One scanning step inside a JSON string literal: `none` is a decode
error, `some (none, rest)` means the closing quote was consumed, and
`some (some ch, rest)` yields one decoded character.  Pure bookkeeping with
no recursion, so it unfolds definitionally. -/
def scanStringToken : List Char → Option (Option Char × List Char)
  | [] => none
  | c :: rest =>
    if c = '"' then some (none, rest)
    else if c = '\\' then
      match rest with
      | [] => none
      | e :: rest1 =>
        if e = 'u' then
          match rest1 with
          | a :: b :: x :: d :: rest2 =>
            match hexQuad a b x d with
            | none => none
            | some n =>
              if n < 0xd800 then some (some (Char.ofNat n), rest2)
              else if n < 0xdc00 then
                match rest2 with
                | s1 :: s2 :: e2 :: f2 :: g2 :: h2 :: rest3 =>
                  if s1 = '\\' then
                    if s2 = 'u' then
                      match hexQuad e2 f2 g2 h2 with
                      | none => none
                      | some m =>
                        if 0xdc00 ≤ m ∧ m < 0xe000 then
                          some (some (Char.ofNat
                            (0x10000 + (n - 0xd800) * 0x400 + (m - 0xdc00))),
                            rest3)
                        else none
                    else none
                  else none
                | _ => none
              else if n < 0xe000 then none
              else some (some (Char.ofNat n), rest2)
          | _ => none
        else
          match unescChar e with
          | none => none
          | some u => some (some u, rest1)
    else if c.toNat < 0x20 then none
    else some (some c, rest)

/-- Iterate `scanStringToken` until the closing quote; fuel bounds the number
of string characters (one unit per scanned token). -/
def parseStringLoop : Nat → List Char → Option (List Char × List Char)
  | 0, _ => none
  | fuel + 1, l =>
    match scanStringToken l with
    | none => none
    | some (none, rest) => some ([], rest)
    | some (some ch, rest) =>
      (parseStringLoop fuel rest).map fun p => (ch :: p.1, p.2)

/-- Parse the body of a JSON string literal after the opening quote: returns
the decoded characters and the input following the closing quote.  Each
token consumes at least one input character, so `length + 1` fuel always
suffices. -/
def parseStringRest (l : List Char) : Option (List Char × List Char) :=
  parseStringLoop (l.length + 1) l

mutual
/-- Parse one JSON value; the fuel only bounds bracket-nesting recursion. -/
def parseVal : Nat → List Char → Option (JData × List Char)
  | 0, _ => none
  | f + 1, l =>
    match l with
    | [] => none
    | c :: rest =>
      if c = 'n' then
        match rest with
        | 'u' :: 'l' :: 'l' :: r => some (.null, r)
        | _ => none
      else if c = 't' then
        match rest with
        | 'r' :: 'u' :: 'e' :: r => some (.bool true, r)
        | _ => none
      else if c = 'f' then
        match rest with
        | 'a' :: 'l' :: 's' :: 'e' :: r => some (.bool false, r)
        | _ => none
      else if c = '"' then
        (parseStringRest rest).map fun p => (.str p.1, p.2)
      else if c = '[' then
        match rest with
        | [] => none
        | r1 :: r2 =>
          if r1 = ']' then some (.arr .anil, r2)
          else (parseElems f (r1 :: r2)).map fun p => (.arr p.1, p.2)
      else if c = '\x7b' then
        match rest with
        | [] => none
        | r1 :: r2 =>
          if r1 = '\x7d' then some (.obj .onil, r2)
          else (parseMembers f (r1 :: r2)).map fun p => (.obj p.1, p.2)
      else if c = '-' then
        let p := spanDigits rest
        if p.1 = [] then none else some (.num (-(valOfDigits p.1 : Int)), p.2)
      else if isDig c then
        let p := spanDigits (c :: rest)
        some (.num (valOfDigits p.1 : Int), p.2)
      else none
/-- Parse a non-empty comma-separated element list followed by `]`. -/
def parseElems : Nat → List Char → Option (JArr × List Char)
  | 0, _ => none
  | f + 1, l =>
    (parseVal f l).bind fun p =>
      match p.2 with
      | ',' :: r2 => (parseElems f r2).map fun q => (.acons p.1 q.1, q.2)
      | ']' :: r2 => some (.acons p.1 .anil, r2)
      | _ => none
/-- Parse a non-empty object member list followed by `\x7d`. -/
def parseMembers : Nat → List Char → Option (JObj × List Char)
  | 0, _ => none
  | f + 1, l =>
    match l with
    | [] => none
    | c :: r0 =>
      if c = '"' then
        (parseStringRest r0).bind fun kp =>
          match kp.2 with
          | ':' :: r2 =>
            (parseVal f r2).bind fun p =>
              match p.2 with
              | ',' :: r4 =>
                (parseMembers f r4).map fun q => (.ocons kp.1 p.1 q.1, q.2)
              | '\x7d' :: r4 => some (.ocons kp.1 p.1 .onil, r4)
              | _ => none
          | _ => none
      else none
end

/-- `json.loads(s)`: the whole input must be consumed.  Objects are kept as
pair lists in parse order; duplicate keys (which Python folds into one dict
entry) do not occur in the round-trip inputs the claims quantify over. -/
def json_loads (cs : List Char) : Option JData :=
  match parseVal (cs.length + 1) cs with
  | some (v, []) => some v
  | _ => none

/-! ### Fuel bounds for the value parser -/

mutual
/-- Fuel needed by `parseVal` to parse the serialisation of `v`. -/
def sizeV : JData → Nat
  | .arr .anil => 1
  | .arr (.acons h t) => 1 + sizeE (.acons h t)
  | .obj .onil => 1
  | .obj (.ocons k v t) => 1 + sizeM (.ocons k v t)
  | _ => 1
/-- Fuel needed by `parseElems` for a (non-empty) element list. -/
def sizeE : JArr → Nat
  | .anil => 0
  | .acons h t => 1 + sizeV h + sizeE t
/-- Fuel needed by `parseMembers` for a (non-empty) member list. -/
def sizeM : JObj → Nat
  | .onil => 0
  | .ocons _ v t => 1 + sizeV v + sizeM t
end

/-! ### Head shapes of serialiser output -/

/-- Possible first characters of a serialised JSON value. -/
def headOk (c : Char) : Prop :=
  c = 'n' ∨ c = 't' ∨ c = 'f' ∨ c = '"' ∨ c = '[' ∨ c = '\x7b' ∨ c = '-' ∨
    isDig c = true

/-! ### Socket.IO packets (socketio/constants.py, protocol.py) -/

def SIO_CONNECT : Nat := 0

def SIO_DISCONNECT : Nat := 1

def SIO_EVENT : Nat := 2

def SIO_ACK : Nat := 3

def SIO_CONNECT_ERROR : Nat := 4

def SIO_BINARY_EVENT : Nat := 5

def SIO_BINARY_ACK : Nat := 6

/-- Default namespace `"/"`. -/
def DEFAULT_NAMESPACE : List Char := ['/']

/-- In-memory Socket.IO packet (protocol v5).  The Python field `namespace`
is called `nsp` here (`namespace` is a Lean keyword); `data = JData.null`
models Python `data = None`. -/
structure SocketIOPacket where
  type : Nat
  nsp : List Char := DEFAULT_NAMESPACE
  data : JData := .null
  id : Option Nat := none
  attachments : Nat := 0
  deriving DecidableEq

/-- `json.dumps(data, separators=(",", ":"))` applied when the packet has a
payload: `encode_packet_to_eio` returns `none` exactly when `json.dumps`
would raise (bytes left in the payload — unreachable, since binary data is
deconstructed first). -/
def encode_packet_to_eio (pkt : SocketIOPacket) :
    Option (List Char × List (List Nat)) :=
  let nsp := if pkt.nsp = [] then DEFAULT_NAMESPACE else pkt.nsp
  let st :=
    if pkt.type = SIO_EVENT ∨ pkt.type = SIO_ACK then
      if pkt.data ≠ .null then
        let p := deconstruct_data pkt.data
        if p.2 ≠ [] then
          ((if pkt.type = SIO_EVENT then SIO_BINARY_EVENT else SIO_BINARY_ACK),
            p.1, p.2.length, p.2)
        else (pkt.type, pkt.data, 0, p.2)
      else (pkt.type, pkt.data, 0, [])
    else if (pkt.type = SIO_BINARY_EVENT ∨ pkt.type = SIO_BINARY_ACK) ∧
        pkt.data ≠ .null then
      let p := deconstruct_data pkt.data
      (pkt.type, p.1, p.2.length, p.2)
    else (pkt.type, pkt.data, 0, [])
  match st with
  | (p_type, data, pack_attachments, attachments) =>
    let parts :=
      natDigits p_type ++
      (if p_type = SIO_BINARY_EVENT ∨ p_type = SIO_BINARY_ACK then
        natDigits pack_attachments ++ ['-']
      else []) ++
      (if nsp ≠ DEFAULT_NAMESPACE then nsp ++ [','] else []) ++
      (match pkt.id with
       | some i => natDigits i
       | none => [])
    if data ≠ .null then
      (dumpVal data).map fun js => (parts ++ js, attachments)
    else some (parts, attachments)

/-! ### The Socket.IO parser (protocol.py `SocketIOParser`) -/

/-- Accumulation state for one BINARY_EVENT/BINARY_ACK
(protocol.py `_BinaryAccum`). -/
structure BinaryAccum where
  pkt : SocketIOPacket
  expected : Nat
  buffers : List (List Nat)
  deriving DecidableEq

/-- Per-connection parser state (the `_binary_accum` attribute). -/
structure SocketIOParser where
  binary_accum : Option BinaryAccum := none
  deriving DecidableEq

/-- Split at the first `,` (Python `rest.find(",")`); `none` when there is
no comma. -/
def splitAtComma : List Char → Option (List Char × List Char)
  | [] => none
  | c :: r =>
    if c = ',' then some ([], r)
    else (splitAtComma r).map fun p => (c :: p.1, p.2)

/-- Attachment-count parse of `_handle_text` (digits up to `-`, only for
BINARY_EVENT / BINARY_ACK); `none` is the malformed case. -/
def attCount (p_type : Nat) (rest0 : List Char) : Option (Nat × List Char) :=
  if p_type = SIO_BINARY_EVENT ∨ p_type = SIO_BINARY_ACK then
    match spanDigits rest0 with
    | (numStr, restAfter) =>
      match restAfter with
      | [] => none
      | c :: rest1 =>
        if c = '-' ∧ numStr ≠ [] then some (valOfDigits numStr, rest1)
        else none
  else some (0, rest0)

/-- Namespace parse of `_handle_text`: a namespace is present iff the rest
starts with `/`, and extends to the first `,`; `none` is the malformed
missing-comma case. -/
def nsSplit (rest1 : List Char) : Option (List Char × List Char) :=
  match rest1 with
  | [] => some (DEFAULT_NAMESPACE, [])
  | c :: _ =>
    if c = '/' then
      match splitAtComma rest1 with
      | none => none
      | some (before, after) =>
        some ((if before = [] then DEFAULT_NAMESPACE else before), after)
    else some (DEFAULT_NAMESPACE, rest1)

/-- `SocketIOParser._handle_text`. -/
def handleText (st : SocketIOParser) (text : List Char) :
    SocketIOParser × List SocketIOPacket :=
  match text with
  | [] => (st, [])
  | first :: rest0 =>
    match st.binary_accum with
    | some _ =>
      -- text frame mid-accumulation: drop the accumulator, yield nothing
      (⟨none⟩, [])
    | none =>
      if isDig first then
        let p_type := digVal first
        match attCount p_type rest0 with
        | none => (st, [])
        | some (attachments, rest1) =>
          match nsSplit rest1 with
          | none => (st, [])
          | some (nsp, rest2) =>
            -- ack id: leading digit run
            let sp := spanDigits rest2
            let ack_id : Option Nat :=
              if sp.1 = [] then none else some (valOfDigits sp.1)
            let rest3 := sp.2
            -- remainder is the JSON payload (parse failure yields null)
            let json_data : JData :=
              if rest3 = [] then .null
              else (json_loads rest3).getD .null
            let pkt : SocketIOPacket :=
              { type := p_type, nsp := nsp, data := json_data, id := ack_id,
                attachments := 0 }
            if p_type = SIO_BINARY_EVENT ∨ p_type = SIO_BINARY_ACK then
              let pkt2 := { pkt with attachments := attachments }
              (⟨some ⟨pkt2, attachments, []⟩⟩, [])
            else (⟨none⟩, [pkt])
      else (st, [])

/-- `SocketIOParser._handle_binary_attachment`. -/
def handleBinaryAttachment (st : SocketIOParser) (data : List Nat) :
    SocketIOParser × List SocketIOPacket :=
  match st.binary_accum with
  | none => (st, [])
  | some accum =>
    let buffers := accum.buffers ++ [data]
    if buffers.length < accum.expected then
      (⟨some { accum with buffers := buffers }⟩, [])
    else
      let pkt := accum.pkt
      let pkt :=
        if pkt.data ≠ .null then
          { pkt with data := reconstruct_data pkt.data buffers }
        else pkt
      (⟨none⟩, [pkt])

/-- One Engine.IO message payload: text, or binary (the `binary` flag of
`feed_eio_message`). -/
inductive EioMsg where
  | text (s : List Char)
  | binary (b : List Nat)
  deriving DecidableEq

/-- `SocketIOParser.feed_eio_message`. -/
def feed_eio_message (st : SocketIOParser) : EioMsg →
    SocketIOParser × List SocketIOPacket
  | .binary b => handleBinaryAttachment st b
  | .text s => handleText st s

/-- Feed a sequence of Engine.IO messages, collecting yielded packets in
order. -/
def feedAll (st : SocketIOParser) : List EioMsg →
    SocketIOParser × List SocketIOPacket
  | [] => (st, [])
  | m :: ms =>
    let p := feed_eio_message st m
    let q := feedAll p.1 ms
    (q.1, p.2 ++ q.2)

/-- The packet completed by `_handle_binary_attachment` once all buffers
have arrived. -/
def completedPkt (pkt : SocketIOPacket) (buffers : List (List Nat)) :
    SocketIOPacket :=
  if pkt.data ≠ .null then
    { pkt with data := reconstruct_data pkt.data buffers }
  else pkt

/-! ### Engine.IO session (engineio/session.py, engineio/constants.py) -/

/-- `RECORD_SEPARATOR = "\x1e"`. -/
def RECORD_SEPARATOR : Char := '\x1e'

/-- Default `MAX_PAYLOAD_BYTES` (1_000_000; overridable through Django
settings, so the session functions below take the limit as an argument). -/
def MAX_PAYLOAD_BYTES : Nat := 1000000

/-- The state of `EngineIOSession` that the HTTP-polling queue logic
touches: the outgoing segment queue, the `closed` flag and the POST
concurrency guard. -/
structure EngineIOSession where
  queue : List (List Char) := []
  closed : Bool := false
  active_post : Bool := false
  deriving DecidableEq

/-- `EngineIOSession.enqueue_http_packet`. -/
def enqueue_http_packet (s : EngineIOSession) (segment : List Char) :
    EngineIOSession :=
  if s.closed then s else { s with queue := s.queue ++ [segment] }

/-- The `for seg in segments` loop of `http_next_payload`: build the
payload bounded by `maxPayload`; the first segment that would overflow is
put back (alone — the loop `break`s, abandoning the rest of the local
list). -/
def drainSegments (maxPayload : Nat) :
    List (List Char) → List Char → Nat → Bool → List Char × List (List Char)
  | [], acc, _, _ => (acc, [])
  | seg :: rest, acc, total, anyPart =>
    let piece := if anyPart then RECORD_SEPARATOR :: seg else seg
    let b := utf8Len piece
    if maxPayload < total + b then (acc, [seg])
    else drainSegments maxPayload rest (acc ++ piece) (total + b) true

/-- `EngineIOSession.http_next_payload`: empty queue models the
`wait_for` timeout (returns `b""`); otherwise all segments are drained
from the queue and `drainSegments` rebuilds it. -/
def http_next_payload (maxPayload : Nat) (s : EngineIOSession) :
    List Char × EngineIOSession :=
  match s.queue with
  | [] => ([], s)
  | seg :: rest =>
    let r := drainSegments maxPayload (seg :: rest) [] 0 false
    (r.1, { s with queue := r.2 })

/-- Payload segments joined by `RECORD_SEPARATOR`; the flag says whether a
part was already emitted (the first piece then gets a separator too). -/
def rsJoinFrom : Bool → List (List Char) → List Char
  | _, [] => []
  | anyPart, seg :: rest =>
    (if anyPart then RECORD_SEPARATOR :: seg else seg) ++ rsJoinFrom true rest

/-! ### Engine.IO HTTP packets (engineio/packets.py) -/

/-- `Packet` of engineio/packets.py: `type` is the packet-type character,
`data` is `str` or `bytes`. -/
inductive PacketData where
  | txt (s : List Char)
  | byt (b : List Nat)
  deriving DecidableEq

structure Packet where
  type : Char
  data : PacketData
  binary : Bool
  deriving DecidableEq

/-- Strict UTF-8 decoding (`bytes.decode("utf-8")`), with fuel: rejects
continuation-byte starts, overlong encodings, surrogates and code points
above U+10FFFF. -/
def utf8DecodeAux : Nat → List Nat → Option (List Char)
  | 0, _ => none
  | _ + 1, [] => some []
  | f + 1, b :: rest =>
    if b < 0x80 then
      (utf8DecodeAux f rest).map (fun cs => Char.ofNat b :: cs)
    else if b < 0xC2 then none
    else if b < 0xE0 then
      match rest with
      | b2 :: r2 =>
        if 0x80 ≤ b2 ∧ b2 < 0xC0 then
          (utf8DecodeAux f r2).map
            (fun cs => Char.ofNat ((b - 0xC0) * 64 + (b2 - 0x80)) :: cs)
        else none
      | [] => none
    else if b < 0xF0 then
      match rest with
      | b2 :: b3 :: r2 =>
        if (0x80 ≤ b2 ∧ b2 < 0xC0) ∧ (0x80 ≤ b3 ∧ b3 < 0xC0) ∧
            (b = 0xE0 → 0xA0 ≤ b2) ∧ (b = 0xED → b2 < 0xA0) then
          (utf8DecodeAux f r2).map
            (fun cs => Char.ofNat
              ((b - 0xE0) * 4096 + (b2 - 0x80) * 64 + (b3 - 0x80)) :: cs)
        else none
      | _ => none
    else if b < 0xF5 then
      match rest with
      | b2 :: b3 :: b4 :: r2 =>
        if (0x80 ≤ b2 ∧ b2 < 0xC0) ∧ (0x80 ≤ b3 ∧ b3 < 0xC0) ∧
            (0x80 ≤ b4 ∧ b4 < 0xC0) ∧
            (b = 0xF0 → 0x90 ≤ b2) ∧ (b = 0xF4 → b2 < 0x90) then
          (utf8DecodeAux f r2).map
            (fun cs => Char.ofNat ((b - 0xF0) * 262144 +
              (b2 - 0x80) * 4096 + (b3 - 0x80) * 64 + (b4 - 0x80)) :: cs)
        else none
      | _ => none
    else none

def utf8Decode (body : List Nat) : Option (List Char) :=
  utf8DecodeAux (body.length + 1) body

/-- Value of a base64 alphabet character (`None` = not in the alphabet). -/
def b64Val (c : Char) : Option Nat :=
  if 'A' ≤ c ∧ c ≤ 'Z' then some (c.toNat - 65)
  else if 'a' ≤ c ∧ c ≤ 'z' then some (c.toNat - 97 + 26)
  else if '0' ≤ c ∧ c ≤ '9' then some (c.toNat - 48 + 52)
  else if c = '+' then some 62
  else if c = '/' then some 63
  else none

/-- CPython `binascii.a2b_base64` in non-strict mode (what
`base64.b64decode` uses): non-alphabet characters are discarded; `=` is
ignored at quad position 0/1, and at position ≥ 2 finishes the string once
position + pads reaches 4; a data character resets the pad count; leftover
quad position 1 at the end is invalid, 2/3 is incorrect padding. -/
def b64DecodeAux : List Char → Nat → Nat → Nat → List Nat →
    Except (List Char) (List Nat)
  | [], quad_pos, _, _, acc =>
    if quad_pos = 0 then .ok acc
    else if quad_pos = 1 then .error (String.toList "Invalid base64-encoded string")
    else .error (String.toList "Incorrect padding")
  | c :: rest, quad_pos, pads, leftchar, acc =>
    if c = '=' then
      if 2 ≤ quad_pos then
        if 4 ≤ quad_pos + (pads + 1) then
          .ok (acc ++
            (if quad_pos = 2 then [leftchar / 16]
             else [leftchar / 1024, leftchar / 4 % 256]))
        else b64DecodeAux rest quad_pos (pads + 1) leftchar acc
      else b64DecodeAux rest quad_pos pads leftchar acc
    else
      match b64Val c with
      | none => b64DecodeAux rest quad_pos pads leftchar acc
      | some v =>
        let lc := leftchar * 64 + v
        if quad_pos = 3 then
          b64DecodeAux rest 0 0 0
            (acc ++ [lc / 65536, lc / 256 % 256, lc % 256])
        else b64DecodeAux rest (quad_pos + 1) 0 lc acc

def b64decode (s : List Char) : Except (List Char) (List Nat) :=
  b64DecodeAux s 0 0 0 []

/-- `str.split(RECORD_SEPARATOR)`. -/
def splitRS : List Char → List (List Char)
  | [] => [[]]
  | c :: r =>
    if c = RECORD_SEPARATOR then [] :: splitRS r
    else
      match splitRS r with
      | p :: ps => (c :: p) :: ps
      | [] => [[c]]

/-- The per-segment loop of `decode_http_payload`: empty segments are
skipped, `b`-prefixed segments are base64 binary messages, anything else
is a text packet of its first character's type. -/
def decodeSegs : List (List Char) → Except (List Char) (List Packet)
  | [] => .ok []
  | seg :: rest =>
    match seg with
    | [] => decodeSegs rest
    | c :: data =>
      if c = 'b' then
        match b64decode data with
        | .error e => .error (String.toList "Invalid base64 payload: " ++ e)
        | .ok raw =>
          (decodeSegs rest).map (fun ps => Packet.mk '4' (.byt raw) true :: ps)
      else
        (decodeSegs rest).map (fun ps => Packet.mk c (.txt data) false :: ps)

/-- `decode_http_payload` (raising = `.error`). -/
def decode_http_payload (body : List Nat) :
    Except (List Char) (List Packet) :=
  if body = [] then .ok []
  else
    match utf8Decode body with
    | none => .error (String.toList "invalid utf-8")
    | some text => decodeSegs (splitRS text)

/-! ### The polling POST handler (engineio/polling.py, engineio/app.py) -/

/-- `close_session` (app.py): when not yet closed, enqueue a noop `"6"`
and set `closed`. -/
def close_session (s : EngineIOSession) : EngineIOSession :=
  if s.closed then s
  else { enqueue_http_packet s ['6'] with closed := true }

/-- `LongPollingConsumer._handle_post`, parameterised by the
application-side packet delivery `deliver` (what
`_handle_packet_from_http` does to the session for one packet): returns
(status code, session afterwards, packets delivered to the application).
The `finally` clears `active_post` on every path that set it. -/
def handle_post (deliver : EngineIOSession → Packet → EngineIOSession)
    (s : EngineIOSession) (body : List Nat) :
    Nat × EngineIOSession × List Packet :=
  if s.active_post then (400, close_session s, [])
  else
    let s1 : EngineIOSession := { s with active_post := true }
    match decode_http_payload body with
    | .error _ => (400, { s1 with active_post := false }, [])
    | .ok pkts =>
      let s2 := pkts.foldl deliver s1
      (200, { s2 with active_post := false }, pkts)

/-! ### Ack callbacks (socketio/socket.py `NamespaceSocket._handle_ack`) -/

/-- Python truthiness of a JSON value (`pkt.data or []`). -/
def pyFalsy : JData → Bool
  | .null => true
  | .bool b => !b
  | .num n => n = 0
  | .str s => s.isEmpty
  | .bin b => b.isEmpty
  | .arr .anil => true
  | .arr _ => false
  | .obj .onil => true
  | .obj _ => false

def jarrToList : JArr → List JData
  | .anil => []
  | .acons h t => h :: jarrToList t

/-- `dict.pop(i, None)` on an association list with unique keys: the
removed callback (if any) and the remaining entries. -/
def popAck : List (Nat × Nat) → Nat → Option Nat × List (Nat × Nat)
  | [], _ => (none, [])
  | (k, cb) :: rest, i =>
    if k = i then (some cb, rest)
    else
      let r := popAck rest i
      (r.1, (k, cb) :: r.2)

/-- `NamespaceSocket._handle_ack`: callbacks are identified by tokens
(`Nat`); the result is the remaining `_pending_acks` and the invocation
performed (callback token and its argument list), if any.
`args = pkt.data or []`, wrapped into a one-element list when not a
list. -/
def handle_ack (pending : List (Nat × Nat)) (pkt : SocketIOPacket) :
    List (Nat × Nat) × Option (Nat × List JData) :=
  match pkt.id with
  | none => (pending, none)
  | some i =>
    match popAck pending i with
    | (none, _) => (pending, none)
    | (some cb, rest) =>
      let args : List JData :=
        if pyFalsy pkt.data then []
        else
          match pkt.data with
          | .arr xs => jarrToList xs
          | d => [d]
      (rest, some (cb, args))

/-! ### Socket.IO server dispatch (socketio/server.py) -/

/-- Externally visible actions of `_handle_sio_packet`. -/
inductive ServerEffect where
  | connect_error (nsp : List Char)
  | send_connect (nsp sid : List Char)
  | close_eio
  deriving DecidableEq

/-- The observable state of one `NamespaceSocket`. -/
structure NsSock where
  id : List Char
  rooms : List (List Char)
  pending_acks : List (Nat × Nat)
  connected : Bool
  deriving DecidableEq

/-- Server state: registered namespaces (`none` = no connect handler,
`some b` = handler answering `b`), the `(eio sid, namespace)` socket
table, and the socket-id counter. -/
structure ServerState where
  namespaces : List (List Char × Option Bool)
  sockets : List ((List Char × List Char) × NsSock)
  next_socket_id : Nat
  deriving DecidableEq

def findNs : List (List Char × Option Bool) → List Char →
    Option (Option Bool)
  | [], _ => none
  | (k, h) :: rest, n => if k = n then some h else findNs rest n

def findSock : List ((List Char × List Char) × NsSock) →
    List Char × List Char → Option NsSock
  | [], _ => none
  | (k, s) :: rest, key => if k = key then some s else findSock rest key

def updateSock (l : List ((List Char × List Char) × NsSock))
    (key : List Char × List Char) (s : NsSock) :
    List ((List Char × List Char) × NsSock) :=
  l.map fun p => if p.1 = key then (key, s) else p

/-- `SocketIOServer._handle_sio_packet`, parameterised by what
`NamespaceSocket._handle_packet_from_client` does to an existing socket
(`deliver`). -/
def handle_sio_packet
    (deliver : NsSock → SocketIOPacket → NsSock × List ServerEffect)
    (st : ServerState) (sid : List Char) (pkt : SocketIOPacket) :
    ServerState × List ServerEffect :=
  let nsp_name := if pkt.nsp = [] then DEFAULT_NAMESPACE else pkt.nsp
  match findNs st.namespaces nsp_name with
  | none =>
    if pkt.type = SIO_CONNECT then (st, [.connect_error nsp_name])
    else (st, [])
  | some handler =>
    let key := (sid, nsp_name)
    match findSock st.sockets key with
    | some sock =>
      if pkt.type = SIO_CONNECT then (st, [])
      else
        let r := deliver sock pkt
        ({ st with sockets := updateSock st.sockets key r.1 }, r.2)
    | none =>
      if pkt.type = SIO_CONNECT then
        let socket_id := sid ++ '#' :: natDigits st.next_socket_id
        let st1 := { st with next_socket_id := st.next_socket_id + 1 }
        if handler = some false then (st1, [.connect_error nsp_name])
        else
          let sock : NsSock :=
            { id := socket_id, rooms := [], pending_acks := [],
              connected := true }
          ({ st1 with sockets := st1.sockets ++ [(key, sock)] },
            [.send_connect nsp_name socket_id])
      else (st, [.close_eio])

theorem natDigitsAux_irrel :
    ∀ fuel fuel' n, n < fuel → n < fuel' →
      natDigitsAux fuel n = natDigitsAux fuel' n := by
  intro fuel
  induction fuel with
  | zero => intro fuel' n h; omega
  | succ f ih =>
    intro fuel' n h h'
    cases fuel' with
    | zero => omega
    | succ f' =>
      simp only [natDigitsAux]
      split
      · rfl
      · rename_i hn
        rw [ih f' (n / 10) (by omega) (by omega)]

/-- Unfolding rule of `natDigits` matching the intended recursion. -/
theorem natDigits_eq (n : Nat) :
    natDigits n =
      if n < 10 then [digitChar n]
      else natDigits (n / 10) ++ [digitChar (n % 10)] := by
  show natDigitsAux (n + 1) n = _
  rw [natDigitsAux]
  split
  · rfl
  · rw [natDigitsAux_irrel n (n / 10 + 1) (n / 10) (by omega) (by omega)]
    rfl

theorem digitChar_isDig {n : Nat} (h : n < 10) : isDig (digitChar n) = true := by
  interval_cases n <;> rfl

theorem digVal_digitChar {n : Nat} (h : n < 10) : digVal (digitChar n) = n := by
  interval_cases n <;> rfl

theorem natDigits_ne_nil (n : Nat) : natDigits n ≠ [] := by
  rw [natDigits_eq]
  split <;> simp

theorem natDigits_all_dig (n : Nat) : ∀ c ∈ natDigits n, isDig c = true := by
  induction n using Nat.strong_induction_on with
  | _ n ih =>
    rw [natDigits_eq]
    split
    · intro c hc
      simp only [List.mem_singleton] at hc
      subst hc
      exact digitChar_isDig (by omega)
    · intro c hc
      rcases List.mem_append.mp hc with h | h
      · exact ih (n / 10) (Nat.div_lt_self (by omega) (by omega)) c h
      · simp only [List.mem_singleton] at h
        subst h
        exact digitChar_isDig (Nat.mod_lt _ (by omega))

theorem spanDigits_append (ds rest : List Char)
    (hds : ∀ c ∈ ds, isDig c = true) (hrest : notDigHead rest) :
    spanDigits (ds ++ rest) = (ds, rest) := by
  induction ds with
  | nil =>
    cases rest with
    | nil => rfl
    | cons c r =>
      simp only [notDigHead] at hrest
      simp [spanDigits, hrest]
  | cons c ds ih =>
    have hc : isDig c = true := hds c (by simp)
    simp only [List.cons_append, spanDigits, hc, if_true]
    simp only [List.append_eq]
    rw [ih (fun d hd => hds d (by simp [hd]))]

theorem valFold_append (acc : Nat) (l1 l2 : List Char) :
    valFold acc (l1 ++ l2) = valFold (valFold acc l1) l2 := by
  induction l1 generalizing acc with
  | nil => rfl
  | cons c r ih => exact ih (acc * 10 + digVal c)

theorem valFold_natDigits (n : Nat) :
    ∀ acc, valFold acc (natDigits n) = acc * 10 ^ (natDigits n).length + n := by
  induction n using Nat.strong_induction_on with
  | _ n ih =>
    intro acc
    rw [natDigits_eq]
    split
    · rename_i h
      have e1 : valFold acc [digitChar n] = acc * 10 + digVal (digitChar n) := rfl
      rw [e1, digVal_digitChar h, List.length_singleton, pow_one]
    · rename_i h
      have hlt : n / 10 < n := Nat.div_lt_self (by omega) (by omega)
      rw [valFold_append, ih (n / 10) hlt acc]
      have e2 : ∀ m : Nat,
          valFold m [digitChar (n % 10)] = m * 10 + digVal (digitChar (n % 10)) :=
        fun m => rfl
      rw [e2, digVal_digitChar (Nat.mod_lt _ (by omega)),
        List.length_append, List.length_singleton, pow_succ]
      calc (acc * 10 ^ (natDigits (n / 10)).length + n / 10) * 10 + n % 10
          = acc * (10 ^ (natDigits (n / 10)).length * 10) + (n / 10 * 10 + n % 10) := by
            ring
        _ = acc * (10 ^ (natDigits (n / 10)).length * 10) + n := by
            omega

theorem valOfDigits_natDigits (n : Nat) : valOfDigits (natDigits n) = n := by
  simp [valOfDigits, valFold_natDigits]

theorem utf8Len_nil : utf8Len [] = 0 := rfl

theorem utf8Len_append (a b : List Char) :
    utf8Len (a ++ b) = utf8Len a + utf8Len b := by
  simp [utf8Len]

theorem hexVal_hexDigitChar {n : Nat} (h : n < 16) :
    hexVal (hexDigitChar n) = some n := by
  interval_cases n <;> rfl

/-! ### Round trip: the parser inverts the serialiser -/

theorem hexQuad_hex4 {n : Nat} (h : n < 0x10000) :
    hexQuad (hexDigitChar (n / 4096 % 16)) (hexDigitChar (n / 256 % 16))
      (hexDigitChar (n / 16 % 16)) (hexDigitChar (n % 16)) = some n := by
  rw [hexQuad, hexVal_hexDigitChar (Nat.mod_lt _ (by omega)),
    hexVal_hexDigitChar (Nat.mod_lt _ (by omega)),
    hexVal_hexDigitChar (Nat.mod_lt _ (by omega)),
    hexVal_hexDigitChar (Nat.mod_lt _ (by omega))]
  exact congrArg some (by omega)

theorem char_ne_of_toNat {c e : Char} (h : c.toNat ≠ e.toNat) : c ≠ e :=
  fun hh => h (by rw [hh])

/-- One-step unfolding of `scanStringToken` on an escape `\uXXXX`. -/
theorem scanToken_u (m : Nat) (rest : List Char) :
    scanStringToken ('\\' :: 'u' :: (hex4 m ++ rest)) =
      match hexQuad (hexDigitChar (m / 4096 % 16)) (hexDigitChar (m / 256 % 16))
        (hexDigitChar (m / 16 % 16)) (hexDigitChar (m % 16)) with
      | none => none
      | some n =>
        if n < 0xd800 then some (some (Char.ofNat n), rest)
        else if n < 0xdc00 then
          match rest with
          | s1 :: s2 :: e2 :: f2 :: g2 :: h2 :: rest3 =>
            if s1 = '\\' then
              if s2 = 'u' then
                match hexQuad e2 f2 g2 h2 with
                | none => none
                | some k =>
                  if 0xdc00 ≤ k ∧ k < 0xe000 then
                    some (some (Char.ofNat
                      (0x10000 + (n - 0xd800) * 0x400 + (k - 0xdc00))), rest3)
                  else none
              else none
            else none
          | _ => none
        else if n < 0xe000 then none
        else some (some (Char.ofNat n), rest) :=
  rfl

/-- A non-surrogate `\uXXXX` escape scans to its code point. -/
theorem scanToken_u_single {m : Nat} (h16 : m < 0x10000)
    (hval : m < 0xd800 ∨ 0xe000 ≤ m) (rest : List Char) :
    scanStringToken ('\\' :: 'u' :: (hex4 m ++ rest)) =
      some (some (Char.ofNat m), rest) := by
  rw [scanToken_u, hexQuad_hex4 h16]
  rcases hval with h | h
  · show (if m < 0xd800 then some (some (Char.ofNat m), rest) else _) = _
    rw [if_pos h]
  · show (if m < 0xd800 then some (some (Char.ofNat m), rest) else _) = _
    rw [if_neg (by omega), if_neg (by omega), if_neg (by omega)]

/-- A surrogate pair `\uD8xx\uDCxx` scans to the combined code point. -/
theorem scanToken_u_pair {n k : Nat} (hn1 : 0xd800 ≤ n) (hn2 : n < 0xdc00)
    (hk1 : 0xdc00 ≤ k) (hk2 : k < 0xe000) (rest : List Char) :
    scanStringToken ('\\' :: 'u' :: (hex4 n ++ '\\' :: 'u' :: (hex4 k ++ rest))) =
      some (some (Char.ofNat (0x10000 + (n - 0xd800) * 0x400 + (k - 0xdc00))),
        rest) := by
  rw [scanToken_u, hexQuad_hex4 (by omega)]
  show (if n < 0xd800 then some (some (Char.ofNat n),
      '\\' :: 'u' :: hex4 k ++ rest) else _) = _
  rw [if_neg (by omega)]
  show (if n < 0xdc00 then _ else _) = _
  rw [if_pos hn2]
  show (if ('\\' : Char) = '\\' then
      if ('u' : Char) = 'u' then
        (match hexQuad (hexDigitChar (k / 4096 % 16)) (hexDigitChar (k / 256 % 16))
          (hexDigitChar (k / 16 % 16)) (hexDigitChar (k % 16)) with
        | none => none
        | some kk =>
          if 0xdc00 ≤ kk ∧ kk < 0xe000 then
            some (some (Char.ofNat
              (0x10000 + (n - 0xd800) * 0x400 + (kk - 0xdc00))), rest)
          else none)
      else none
    else none) = _
  rw [if_pos rfl, if_pos rfl, hexQuad_hex4 (by omega)]
  show (if 0xdc00 ≤ k ∧ k < 0xe000 then
      some (some (Char.ofNat (0x10000 + (n - 0xd800) * 0x400 + (k - 0xdc00))),
        rest)
    else none) = _
  rw [if_pos ⟨hk1, hk2⟩]

/-- Unfolding of `scanStringToken` on an ordinary (non-escape) character. -/
theorem scanToken_plain {c : Char} (h1 : c ≠ '"') (h2 : c ≠ '\\')
    (h3 : ¬ c.toNat < 0x20) (rest : List Char) :
    scanStringToken (c :: rest) = some (some c, rest) := by
  simp only [scanStringToken]
  rw [if_neg h1, if_neg h2, if_neg h3]

/-- Scanning inverts one-character escaping. -/
theorem scanToken_escChar (c : Char) (rest : List Char) :
    scanStringToken (escChar c ++ rest) = some (some c, rest) := by
  have hvalid : c.toNat < 0xd800 ∨ (0xdfff < c.toNat ∧ c.toNat < 0x110000) :=
    c.valid
  rw [escChar]
  split_ifs with h1 h2 h3 h4 h5 h6 h7 h8 h9 h10
  · subst h1; rfl
  · subst h2; rfl
  · subst h3; rfl
  · subst h4; rfl
  · subst h5; rfl
  · have hc : c = Char.ofNat 8 := by rw [← Char.ofNat_toNat c, h6]
    subst hc; rfl
  · have hc : c = Char.ofNat 12 := by rw [← Char.ofNat_toNat c, h7]
    subst hc; rfl
  · -- control character below 0x20: single `\uXXXX`
    simp only [List.cons_append]
    rw [scanToken_u_single (by omega) (by omega), Char.ofNat_toNat]
  · -- printable ASCII is emitted verbatim
    rw [show ([c] : List Char) ++ rest = c :: rest from rfl]
    rw [scanToken_plain h1 h2 (by omega)]
  · -- BMP character at or above 0x7f: single `\uXXXX`
    simp only [List.cons_append]
    rw [scanToken_u_single (by omega) (by omega), Char.ofNat_toNat]
  · -- astral character: surrogate pair
    have hm : c.toNat - 0x10000 < 0x100000 := by omega
    simp only [List.cons_append, List.append_assoc]
    rw [@scanToken_u_pair (0xd800 + (c.toNat - 0x10000) / 0x400)
      (0xdc00 + (c.toNat - 0x10000) % 0x400)
      (by omega) (by omega) (by omega) (by omega) rest]
    have e5 : 0x10000 +
        (0xd800 + (c.toNat - 0x10000) / 0x400 - 0xd800) * 0x400 +
        (0xdc00 + (c.toNat - 0x10000) % 0x400 - 0xdc00) = c.toNat := by omega
    rw [e5, Char.ofNat_toNat]

theorem escChar_length_pos (c : Char) : 1 ≤ (escChar c).length := by
  rw [escChar]
  split_ifs <;> simp [hex4]

theorem length_le_flatMap_escChar (s : List Char) :
    s.length ≤ (s.flatMap escChar).length := by
  induction s with
  | nil => simp
  | cons c s ih =>
    have := escChar_length_pos c
    simp only [List.flatMap_cons, List.length_append, List.length_cons]
    omega

/-- The string-body loop inverts escaping of a whole string. -/
theorem parseStringLoop_escBody :
    ∀ (s : List Char) (fuel : Nat) (rest : List Char), s.length < fuel →
      parseStringLoop fuel (s.flatMap escChar ++ '"' :: rest) = some (s, rest) := by
  intro s
  induction s with
  | nil =>
    intro fuel rest hf
    cases fuel with
    | zero => omega
    | succ f => rfl
  | cons c s ih =>
    intro fuel rest hf
    cases fuel with
    | zero => omega
    | succ f =>
      have hsplit : (c :: s).flatMap escChar ++ '"' :: rest =
          escChar c ++ (s.flatMap escChar ++ '"' :: rest) := by
        simp [List.flatMap_cons, List.append_assoc]
      rw [hsplit]
      simp only [parseStringLoop]
      rw [scanToken_escChar]
      show (parseStringLoop f (s.flatMap escChar ++ '"' :: rest)).map
          (fun p => (c :: p.1, p.2)) = some (c :: s, rest)
      rw [ih f rest (by simpa using Nat.lt_of_succ_lt_succ hf)]
      rfl

/-- `parseStringRest` inverts escaping of a whole string body. -/
theorem parseStringRest_escBody (s rest : List Char) :
    parseStringRest (s.flatMap escChar ++ '"' :: rest) = some (s, rest) := by
  have hlen := length_le_flatMap_escChar s
  apply parseStringLoop_escBody
  simp only [List.length_append, List.length_cons]
  omega

/-! ### One-step dispatch equations for the value parser -/

theorem parseVal_null (f : Nat) (rest : List Char) :
    parseVal (f + 1) ('n' :: 'u' :: 'l' :: 'l' :: rest) = some (.null, rest) :=
  rfl

theorem parseVal_true (f : Nat) (rest : List Char) :
    parseVal (f + 1) ('t' :: 'r' :: 'u' :: 'e' :: rest) =
      some (.bool true, rest) :=
  rfl

theorem parseVal_false (f : Nat) (rest : List Char) :
    parseVal (f + 1) ('f' :: 'a' :: 'l' :: 's' :: 'e' :: rest) =
      some (.bool false, rest) :=
  rfl

theorem parseVal_quote (f : Nat) (rest : List Char) :
    parseVal (f + 1) ('"' :: rest) =
      (parseStringRest rest).map fun p => (.str p.1, p.2) :=
  rfl

theorem parseVal_bracket (f : Nat) (r1 : Char) (r2 : List Char) :
    parseVal (f + 1) ('[' :: r1 :: r2) =
      if r1 = ']' then some (.arr .anil, r2)
      else (parseElems f (r1 :: r2)).map fun p => (.arr p.1, p.2) := by
  simp only [parseVal]
  simp

theorem parseVal_brace (f : Nat) (r1 : Char) (r2 : List Char) :
    parseVal (f + 1) ('\x7b' :: r1 :: r2) =
      if r1 = '\x7d' then some (.obj .onil, r2)
      else (parseMembers f (r1 :: r2)).map fun p => (.obj p.1, p.2) := by
  simp only [parseVal]
  simp

theorem parseVal_neg (f : Nat) (rest : List Char) :
    parseVal (f + 1) ('-' :: rest) =
      if (spanDigits rest).1 = [] then none
      else some (.num (-(valOfDigits (spanDigits rest).1 : Int)),
        (spanDigits rest).2) := by
  simp only [parseVal]
  simp

theorem isDig_bounds {c : Char} (h : isDig c = true) :
    48 ≤ c.toNat ∧ c.toNat ≤ 57 := by
  simpa [isDig] using h

theorem parseVal_digit (f : Nat) {c : Char} (hc : isDig c = true)
    (rest : List Char) :
    parseVal (f + 1) (c :: rest) =
      some (.num (valOfDigits (spanDigits (c :: rest)).1 : Int),
        (spanDigits (c :: rest)).2) := by
  have hb := isDig_bounds hc
  simp only [parseVal]
  rw [if_neg (char_ne_of_toNat (show c.toNat ≠ 110 by omega)),
    if_neg (char_ne_of_toNat (show c.toNat ≠ 116 by omega)),
    if_neg (char_ne_of_toNat (show c.toNat ≠ 102 by omega)),
    if_neg (char_ne_of_toNat (show c.toNat ≠ 34 by omega)),
    if_neg (char_ne_of_toNat (show c.toNat ≠ 91 by omega)),
    if_neg (char_ne_of_toNat (show c.toNat ≠ 123 by omega)),
    if_neg (char_ne_of_toNat (show c.toNat ≠ 45 by omega)),
    if_pos hc]

theorem parseElems_succ (f : Nat) (l : List Char) :
    parseElems (f + 1) l =
      (parseVal f l).bind fun p =>
        match p.2 with
        | ',' :: r2 => (parseElems f r2).map fun q => (.acons p.1 q.1, q.2)
        | ']' :: r2 => some (.acons p.1 .anil, r2)
        | _ => none := by
  simp only [parseElems]

theorem parseMembers_quote (f : Nat) (r0 : List Char) :
    parseMembers (f + 1) ('"' :: r0) =
      (parseStringRest r0).bind fun kp =>
        match kp.2 with
        | ':' :: r2 =>
          (parseVal f r2).bind fun p =>
            match p.2 with
            | ',' :: r4 =>
              (parseMembers f r4).map fun q => (.ocons kp.1 p.1 q.1, q.2)
            | '\x7d' :: r4 => some (.ocons kp.1 p.1 .onil, r4)
            | _ => none
        | _ => none := by
  simp only [parseMembers]
  simp

theorem headOk_ne_bracket {c : Char} (h : headOk c) : c ≠ ']' := by
  rcases h with h | h | h | h | h | h | h | h <;>
    first
      | (subst h; decide)
      | (exact char_ne_of_toNat
          (by have := isDig_bounds h; have e : ']'.toNat = 93 := rfl; omega))

theorem headOk_ne_brace {c : Char} (h : headOk c) : c ≠ '\x7d' := by
  rcases h with h | h | h | h | h | h | h | h <;>
    first
      | (subst h; decide)
      | (exact char_ne_of_toNat
          (by have := isDig_bounds h; have e : '\x7d'.toNat = 125 := rfl; omega))

theorem natDigits_cons (n : Nat) :
    ∃ d ds, natDigits n = d :: ds ∧ isDig d = true := by
  cases hnn : natDigits n with
  | nil => exact absurd hnn (natDigits_ne_nil n)
  | cons d ds =>
    refine ⟨d, ds, rfl, natDigits_all_dig n d ?_⟩
    rw [hnn]
    simp

theorem dumpVal_head {v : JData} {cs : List Char} (h : dumpVal v = some cs) :
    ∃ c cs', cs = c :: cs' ∧ headOk c := by
  cases v with
  | null =>
    injection h with h
    exact ⟨'n', _, h.symm, .inl rfl⟩
  | bool b =>
    cases b with
    | true =>
      injection h with h
      exact ⟨'t', _, h.symm, .inr (.inl rfl)⟩
    | false =>
      injection h with h
      exact ⟨'f', _, h.symm, .inr (.inr (.inl rfl))⟩
  | num n =>
    have hi : intChars n = cs := by injection h
    obtain ⟨d, ds, hds, hd⟩ := natDigits_cons n.natAbs
    rw [intChars] at hi
    by_cases hneg : n < 0
    · rw [if_pos hneg] at hi
      exact ⟨'-', _, hi.symm, .inr (.inr (.inr (.inr (.inr (.inr (.inl rfl))))))⟩
    · rw [if_neg hneg, hds] at hi
      exact ⟨d, ds, hi.symm, .inr (.inr (.inr (.inr (.inr (.inr (.inr hd))))))⟩
  | str s =>
    injection h with h
    exact ⟨'"', _, h.symm, .inr (.inr (.inr (.inl rfl)))⟩
  | bin bs => exact Option.noConfusion h
  | arr xs =>
    simp only [dumpVal] at h
    cases hde : dumpElems xs with
    | none => rw [hde] at h; exact Option.noConfusion h
    | some de =>
      rw [hde] at h
      injection h with h
      exact ⟨'[', _, h.symm, .inr (.inr (.inr (.inr (.inl rfl))))⟩
  | obj fs =>
    simp only [dumpVal] at h
    cases hdm : dumpMembers fs with
    | none => rw [hdm] at h; exact Option.noConfusion h
    | some dm =>
      rw [hdm] at h
      injection h with h
      exact ⟨'\x7b', _, h.symm, .inr (.inr (.inr (.inr (.inr (.inl rfl)))))⟩

theorem dumpElems_head {h : JData} {t : JArr} {de : List Char}
    (hde : dumpElems (.acons h t) = some de) :
    ∃ c de', de = c :: de' ∧ headOk c := by
  cases t with
  | anil => exact dumpVal_head hde
  | acons h2 t2 =>
    simp only [dumpElems] at hde
    cases hv : dumpVal h with
    | none => rw [hv] at hde; exact Option.noConfusion hde
    | some cs1 =>
      rw [hv] at hde
      cases he : dumpElems (.acons h2 t2) with
      | none => rw [he] at hde; exact Option.noConfusion hde
      | some cs2 =>
        rw [he] at hde
        simp only [Option.bind, Option.map] at hde
        obtain ⟨c, cs1', hcs1, hok⟩ := dumpVal_head hv
        injection hde with hde
        exact ⟨c, cs1' ++ ',' :: cs2, by rw [← hde, hcs1]; simp, hok⟩

theorem notDigHead_cons {c : Char} (rest : List Char) (h : isDig c = false) :
    notDigHead (c :: rest) := h

theorem dumpMembers_quote_head {k : List Char} {v : JData} {tl : JObj}
    {dm : List Char} (hdm : dumpMembers (.ocons k v tl) = some dm) :
    ∃ dm', dm = '"' :: dm' := by
  cases tl with
  | onil =>
    simp only [dumpMembers] at hdm
    cases hv : dumpVal v with
    | none => rw [hv] at hdm; exact Option.noConfusion hdm
    | some csv =>
      rw [hv] at hdm
      simp only [Option.map] at hdm
      injection hdm with hdm
      exact ⟨(k.flatMap escChar ++ ['"']) ++ ':' :: csv, by
        rw [← hdm]; simp [escStr]⟩
  | ocons k2 v2 t2 =>
    simp only [dumpMembers] at hdm
    cases hv : dumpVal v with
    | none => rw [hv] at hdm; exact Option.noConfusion hdm
    | some csv =>
      rw [hv] at hdm
      cases hm : dumpMembers (.ocons k2 v2 t2) with
      | none => rw [hm] at hdm; exact Option.noConfusion hdm
      | some cs2 =>
        rw [hm] at hdm
        simp only [Option.bind, Option.map] at hdm
        injection hdm with hdm
        exact ⟨(k.flatMap escChar ++ ['"']) ++ ':' :: csv ++ ',' :: cs2, by
          rw [← hdm]; simp [escStr]⟩

/-! ### The value parser inverts the serialiser -/

mutual
/-- Parsing a serialised value consumes exactly its characters and returns
the value (the continuation must not begin with a digit, which holds at
every call site: end of input, `,`, `]`, `\x7d`). -/
theorem parse_dump_val (v : JData) :
    ∀ (cs rest : List Char) (fuel : Nat), dumpVal v = some cs →
      sizeV v ≤ fuel → notDigHead rest →
      parseVal fuel (cs ++ rest) = some (v, rest) := by
  cases v with
  | null =>
    intro cs rest fuel h hsz hrest
    injection h with h
    subst h
    cases fuel with
    | zero => simp [sizeV] at hsz
    | succ f => exact parseVal_null f rest
  | bool b =>
    intro cs rest fuel h hsz hrest
    cases fuel with
    | zero => simp [sizeV] at hsz
    | succ f =>
      cases b with
      | true =>
        injection h with h
        subst h
        exact parseVal_true f rest
      | false =>
        injection h with h
        subst h
        exact parseVal_false f rest
  | num n =>
    intro cs rest fuel h hsz hrest
    cases fuel with
    | zero => simp [sizeV] at hsz
    | succ f =>
      have hi : intChars n = cs := by injection h
      rw [intChars] at hi
      by_cases hneg : n < 0
      · rw [if_pos hneg] at hi
        subst hi
        show parseVal (f + 1) ('-' :: (natDigits n.natAbs ++ rest)) = _
        rw [parseVal_neg,
          spanDigits_append _ _ (natDigits_all_dig n.natAbs) hrest,
          if_neg (natDigits_ne_nil n.natAbs)]
        have : -(valOfDigits (natDigits n.natAbs) : Int) = n := by
          rw [valOfDigits_natDigits]
          omega
        rw [this]
      · rw [if_neg hneg] at hi
        obtain ⟨d, ds, hds, hd⟩ := natDigits_cons n.natAbs
        rw [hds] at hi
        subst hi
        show parseVal (f + 1) (d :: (ds ++ rest)) = _
        rw [parseVal_digit f hd]
        have hsp : spanDigits (d :: (ds ++ rest)) = (natDigits n.natAbs, rest) := by
          rw [show d :: (ds ++ rest) = natDigits n.natAbs ++ rest from by
            rw [hds]; rfl]
          exact spanDigits_append _ _ (natDigits_all_dig n.natAbs) hrest
        rw [hsp]
        have : (valOfDigits (natDigits n.natAbs) : Int) = n := by
          rw [valOfDigits_natDigits]
          omega
        rw [this]
  | str s =>
    intro cs rest fuel h hsz hrest
    cases fuel with
    | zero => simp [sizeV] at hsz
    | succ f =>
      injection h with h
      subst h
      show parseVal (f + 1)
        ('"' :: ((s.flatMap escChar ++ ['"']) ++ rest)) = _
      rw [parseVal_quote,
        show (s.flatMap escChar ++ ['"']) ++ rest =
          s.flatMap escChar ++ '"' :: rest from by simp,
        parseStringRest_escBody]
      rfl
  | bin bs =>
    intro cs rest fuel h hsz hrest
    exact Option.noConfusion h
  | arr xs =>
    intro cs rest fuel h hsz hrest
    cases xs with
    | anil =>
      injection h with h
      subst h
      cases fuel with
      | zero => simp [sizeV] at hsz
      | succ f =>
        show parseVal (f + 1) ('[' :: ']' :: rest) = _
        rw [parseVal_bracket, if_pos rfl]
    | acons hd tl =>
      cases fuel with
      | zero => simp [sizeV] at hsz
      | succ f =>
        simp only [dumpVal] at h
        cases hde : dumpElems (.acons hd tl) with
        | none => rw [hde] at h; exact Option.noConfusion h
        | some de =>
          rw [hde] at h
          injection h with h
          subst h
          obtain ⟨c0, de', hde', hok⟩ := dumpElems_head hde
          show parseVal (f + 1) (('[' :: de ++ [']']) ++ rest) = _
          rw [show ('[' :: de ++ [']']) ++ rest =
            '[' :: (de ++ ']' :: rest) from by simp]
          rw [hde']
          show parseVal (f + 1) ('[' :: c0 :: (de' ++ ']' :: rest)) = _
          rw [parseVal_bracket, if_neg (headOk_ne_bracket hok),
            show c0 :: (de' ++ ']' :: rest) = de ++ ']' :: rest from by
              rw [hde']; rfl]
          rw [parse_dump_elems hd tl de rest f hde (by
            simp only [sizeV] at hsz
            omega)]
          rfl
  | obj fs =>
    intro cs rest fuel h hsz hrest
    cases fs with
    | onil =>
      injection h with h
      subst h
      cases fuel with
      | zero => simp [sizeV] at hsz
      | succ f =>
        show parseVal (f + 1) ('\x7b' :: '\x7d' :: rest) = _
        rw [parseVal_brace, if_pos rfl]
    | ocons k v tl =>
      cases fuel with
      | zero => simp [sizeV] at hsz
      | succ f =>
        simp only [dumpVal] at h
        cases hdm : dumpMembers (.ocons k v tl) with
        | none => rw [hdm] at h; exact Option.noConfusion h
        | some dm =>
          rw [hdm] at h
          injection h with h
          subst h
          obtain ⟨dm', hdm'⟩ := dumpMembers_quote_head hdm
          show parseVal (f + 1) (('\x7b' :: dm ++ ['\x7d']) ++ rest) = _
          rw [show ('\x7b' :: dm ++ ['\x7d']) ++ rest =
            '\x7b' :: (dm ++ '\x7d' :: rest) from by simp]
          rw [hdm']
          show parseVal (f + 1) ('\x7b' :: '"' :: (dm' ++ '\x7d' :: rest)) = _
          rw [parseVal_brace, if_neg (by decide),
            show ('"' : Char) :: (dm' ++ '\x7d' :: rest) =
              dm ++ '\x7d' :: rest from by rw [hdm']; rfl]
          rw [parse_dump_members k v tl dm rest f hdm (by
            simp only [sizeV] at hsz
            omega)]
          rfl
termination_by sizeOf v

/-- Parsing the serialised elements of a non-empty array, followed by `]`. -/
theorem parse_dump_elems (hd : JData) (tl : JArr) :
    ∀ (cs rest : List Char) (fuel : Nat), dumpElems (.acons hd tl) = some cs →
      sizeE (.acons hd tl) ≤ fuel →
      parseElems fuel (cs ++ ']' :: rest) = some (.acons hd tl, rest) := by
  cases tl with
  | anil =>
    intro cs rest fuel hde hsz
    cases fuel with
    | zero => simp only [sizeE] at hsz; omega
    | succ f =>
      have hv : dumpVal hd = some cs := hde
      rw [parseElems_succ,
        parse_dump_val hd cs (']' :: rest) f hv
          (by simp only [sizeE] at hsz; omega) (notDigHead_cons _ (by decide))]
      rfl
  | acons h2 t2 =>
    intro cs rest fuel hde hsz
    cases fuel with
    | zero => simp only [sizeE] at hsz; omega
    | succ f =>
      simp only [dumpElems] at hde
      cases hv : dumpVal hd with
      | none => rw [hv] at hde; exact Option.noConfusion hde
      | some cs1 =>
        rw [hv] at hde
        cases he : dumpElems (.acons h2 t2) with
        | none => rw [he] at hde; exact Option.noConfusion hde
        | some cs2 =>
          rw [he] at hde
          simp only [Option.bind, Option.map] at hde
          injection hde with hde
          subst hde
          rw [show (cs1 ++ ',' :: cs2) ++ ']' :: rest =
            cs1 ++ ',' :: (cs2 ++ ']' :: rest) from by simp]
          rw [parseElems_succ,
            parse_dump_val hd cs1 (',' :: (cs2 ++ ']' :: rest)) f hv
              (by simp only [sizeE] at hsz; omega) (notDigHead_cons _ (by decide))]
          show (parseElems f (cs2 ++ ']' :: rest)).map _ = _
          rw [parse_dump_elems h2 t2 cs2 rest f he
            (by simp only [sizeE] at hsz ⊢; omega)]
          rfl
termination_by sizeOf (JArr.acons hd tl)

/-- Parsing the serialised members of a non-empty object, followed by
`\x7d`. -/
theorem parse_dump_members (k : List Char) (v : JData) (tl : JObj) :
    ∀ (cs rest : List Char) (fuel : Nat),
      dumpMembers (.ocons k v tl) = some cs → sizeM (.ocons k v tl) ≤ fuel →
      parseMembers fuel (cs ++ '\x7d' :: rest) = some (.ocons k v tl, rest) := by
  cases tl with
  | onil =>
    intro cs rest fuel hdm hsz
    cases fuel with
    | zero => simp only [sizeM] at hsz; omega
    | succ f =>
      simp only [dumpMembers] at hdm
      cases hv : dumpVal v with
      | none => rw [hv] at hdm; exact Option.noConfusion hdm
      | some csv =>
        rw [hv] at hdm
        simp only [Option.map] at hdm
        injection hdm with hdm
        subst hdm
        rw [show (escStr k ++ ':' :: csv) ++ '\x7d' :: rest =
          '"' :: (k.flatMap escChar ++ '"' ::
            (':' :: (csv ++ '\x7d' :: rest))) from by simp [escStr]]
        rw [parseMembers_quote, parseStringRest_escBody]
        show (parseVal f (csv ++ '\x7d' :: rest)).bind _ = _
        rw [parse_dump_val v csv ('\x7d' :: rest) f hv
          (by simp only [sizeM] at hsz; omega) (notDigHead_cons _ (by decide))]
        rfl
  | ocons k2 v2 t2 =>
    intro cs rest fuel hdm hsz
    cases fuel with
    | zero => simp only [sizeM] at hsz; omega
    | succ f =>
      simp only [dumpMembers] at hdm
      cases hv : dumpVal v with
      | none => rw [hv] at hdm; exact Option.noConfusion hdm
      | some csv =>
        rw [hv] at hdm
        cases hm : dumpMembers (.ocons k2 v2 t2) with
        | none => rw [hm] at hdm; exact Option.noConfusion hdm
        | some cs2 =>
          rw [hm] at hdm
          simp only [Option.bind, Option.map] at hdm
          injection hdm with hdm
          subst hdm
          rw [show (escStr k ++ ':' :: csv ++ ',' :: cs2) ++ '\x7d' :: rest =
            '"' :: (k.flatMap escChar ++ '"' ::
              (':' :: (csv ++ ',' :: (cs2 ++ '\x7d' :: rest)))) from by
            simp [escStr]]
          rw [parseMembers_quote, parseStringRest_escBody]
          show (parseVal f (csv ++ ',' :: (cs2 ++ '\x7d' :: rest))).bind _ = _
          rw [parse_dump_val v csv (',' :: (cs2 ++ '\x7d' :: rest)) f hv
            (by simp only [sizeM] at hsz; omega) (notDigHead_cons _ (by decide))]
          show (parseMembers f (cs2 ++ '\x7d' :: rest)).map _ = _
          rw [parse_dump_members k2 v2 t2 cs2 rest f hm
            (by simp only [sizeM] at hsz ⊢; omega)]
          rfl
termination_by sizeOf (JObj.ocons k v tl)
end

/-! ### Fuel sufficiency: the serialised length bounds the needed fuel -/

mutual
theorem sizeV_le_dump (v : JData) :
    ∀ cs, dumpVal v = some cs → sizeV v ≤ cs.length := by
  cases v with
  | null => intro cs h; injection h with h; subst h; simp [sizeV]
  | bool b =>
    cases b <;> (intro cs h; injection h with h; subst h; simp [sizeV])
  | num n =>
    intro cs h
    injection h with h
    subst h
    simp only [sizeV, intChars]
    split
    · simp only [List.length_cons]
      omega
    · have := natDigits_ne_nil n.natAbs
      cases hd : natDigits n.natAbs with
      | nil => exact absurd hd this
      | cons d ds => simp [hd]
  | str s =>
    intro cs h
    injection h with h
    subst h
    simp [sizeV, escStr]
  | bin bs => intro cs h; exact Option.noConfusion h
  | arr xs =>
    cases xs with
    | anil => intro cs h; injection h with h; subst h; simp [sizeV]
    | acons hd tl =>
      intro cs h
      simp only [dumpVal] at h
      cases hde : dumpElems (.acons hd tl) with
      | none => rw [hde] at h; exact Option.noConfusion h
      | some de =>
        rw [hde] at h
        injection h with h
        subst h
        have := sizeE_le_dump hd tl de hde
        simp only [sizeV, List.length_cons, List.length_append,
          List.length_singleton]
        omega
  | obj fs =>
    cases fs with
    | onil => intro cs h; injection h with h; subst h; simp [sizeV]
    | ocons k v tl =>
      intro cs h
      simp only [dumpVal] at h
      cases hdm : dumpMembers (.ocons k v tl) with
      | none => rw [hdm] at h; exact Option.noConfusion h
      | some dm =>
        rw [hdm] at h
        injection h with h
        subst h
        have := sizeM_le_dump k v tl dm hdm
        simp only [sizeV, List.length_cons, List.length_append,
          List.length_singleton]
        omega
termination_by sizeOf v

theorem sizeE_le_dump (hd : JData) (tl : JArr) :
    ∀ cs, dumpElems (.acons hd tl) = some cs →
      sizeE (.acons hd tl) ≤ cs.length + 1 := by
  cases tl with
  | anil =>
    intro cs h
    have := sizeV_le_dump hd cs h
    simp only [sizeE]
    omega
  | acons h2 t2 =>
    intro cs h
    simp only [dumpElems] at h
    cases hv : dumpVal hd with
    | none => rw [hv] at h; exact Option.noConfusion h
    | some cs1 =>
      rw [hv] at h
      cases he : dumpElems (.acons h2 t2) with
      | none => rw [he] at h; exact Option.noConfusion h
      | some cs2 =>
        rw [he] at h
        simp only [Option.bind, Option.map] at h
        injection h with h
        subst h
        have h1 := sizeV_le_dump hd cs1 hv
        have h2 := sizeE_le_dump h2 t2 cs2 he
        simp only [sizeE] at h2 ⊢
        simp only [List.length_append, List.length_cons]
        omega
termination_by sizeOf (JArr.acons hd tl)

theorem sizeM_le_dump (k : List Char) (v : JData) (tl : JObj) :
    ∀ cs, dumpMembers (.ocons k v tl) = some cs →
      sizeM (.ocons k v tl) ≤ cs.length + 1 := by
  cases tl with
  | onil =>
    intro cs h
    simp only [dumpMembers] at h
    cases hv : dumpVal v with
    | none => rw [hv] at h; exact Option.noConfusion h
    | some csv =>
      rw [hv] at h
      simp only [Option.map] at h
      injection h with h
      subst h
      have := sizeV_le_dump v csv hv
      simp only [sizeM, List.length_append, List.length_cons]
      omega
  | ocons k2 v2 t2 =>
    intro cs h
    simp only [dumpMembers] at h
    cases hv : dumpVal v with
    | none => rw [hv] at h; exact Option.noConfusion h
    | some csv =>
      rw [hv] at h
      cases hm : dumpMembers (.ocons k2 v2 t2) with
      | none => rw [hm] at h; exact Option.noConfusion h
      | some cs2 =>
        rw [hm] at h
        simp only [Option.bind, Option.map] at h
        injection h with h
        subst h
        have h1 := sizeV_le_dump v csv hv
        have h2 := sizeM_le_dump k2 v2 t2 cs2 hm
        simp only [sizeM] at h2 ⊢
        simp only [List.length_append, List.length_cons]
        omega
termination_by sizeOf (JObj.ocons k v tl)
end

/-- `json.loads` inverts `json.dumps`. -/
theorem json_loads_dump {v : JData} {cs : List Char}
    (h : dumpVal v = some cs) : json_loads cs = some v := by
  have hp := parse_dump_val v cs [] (cs.length + 1) h
    (le_trans (sizeV_le_dump v cs h) (by omega)) trivial
  rw [List.append_nil] at hp
  rw [json_loads, hp]

/-! ### Reconstruction inverts deconstruction -/

theorem walkDecon_boolTrue_iff (v : JData) (acc : List (List Nat)) :
    (walkDecon v acc).1 = .bool true ↔ v = .bool true := by
  cases v <;> simp [walkDecon, placeholderObj]

theorem isPhLike_decon :
    ∀ (fs : JObj) (acc : List (List Nat)),
      isPhLike (walkDeconO fs acc).1 = isPhLike fs
  | .onil, acc => rfl
  | .ocons k v t, acc => by
    simp only [walkDeconO, isPhLike, objGet]
    by_cases hk : k = placeholderKey
    · simp [hk, walkDecon_boolTrue_iff]
    · simp only [if_neg hk]
      exact isPhLike_decon t (walkDecon v acc).2

mutual
theorem deconPrefixV (d : JData) :
    ∀ acc, ∃ δ, (walkDecon d acc).2 = acc ++ δ := by
  cases d with
  | bin bs => exact fun acc => ⟨[bs], rfl⟩
  | arr xs => exact fun acc => deconPrefixA xs acc
  | obj fs => exact fun acc => deconPrefixO fs acc
  | null => exact fun acc => ⟨[], by simp [walkDecon]⟩
  | bool b => exact fun acc => ⟨[], by simp [walkDecon]⟩
  | num n => exact fun acc => ⟨[], by simp [walkDecon]⟩
  | str s => exact fun acc => ⟨[], by simp [walkDecon]⟩
termination_by sizeOf d

theorem deconPrefixA (xs : JArr) :
    ∀ acc, ∃ δ, (walkDeconA xs acc).2 = acc ++ δ := by
  cases xs with
  | anil => exact fun acc => ⟨[], by simp [walkDeconA]⟩
  | acons h t =>
    intro acc
    obtain ⟨d1, h1⟩ := deconPrefixV h acc
    obtain ⟨d2, h2⟩ := deconPrefixA t (walkDecon h acc).2
    exact ⟨d1 ++ d2, by
      show (walkDeconA t (walkDecon h acc).2).2 = _
      rw [h2, h1, List.append_assoc]⟩
termination_by sizeOf xs

theorem deconPrefixO (fs : JObj) :
    ∀ acc, ∃ δ, (walkDeconO fs acc).2 = acc ++ δ := by
  cases fs with
  | onil => exact fun acc => ⟨[], by simp [walkDeconO]⟩
  | ocons k v t =>
    intro acc
    obtain ⟨d1, h1⟩ := deconPrefixV v acc
    obtain ⟨d2, h2⟩ := deconPrefixO t (walkDecon v acc).2
    exact ⟨d1 ++ d2, by
      show (walkDeconO t (walkDecon v acc).2).2 = _
      rw [h2, h1, List.append_assoc]⟩
termination_by sizeOf fs
end

mutual
/-- Reconstructing a deconstructed value from any attachment list that
extends the accumulated attachments restores the value, provided the value
contained no placeholder-shaped dict of its own. -/
theorem reconDeconV (d : JData) :
    ∀ (acc ext : List (List Nat)), noPh d = true →
      walkRecon ((walkDecon d acc).2 ++ ext) (walkDecon d acc).1 = d := by
  cases d with
  | null => intro acc ext h; rfl
  | bool b => intro acc ext h; rfl
  | num n => intro acc ext h; rfl
  | str s => intro acc ext h; rfl
  | bin bs =>
    intro acc ext h
    show (if 0 ≤ ((acc.length : Nat) : Int) ∧
        ((acc.length : Nat) : Int) < (((acc ++ [bs]) ++ ext).length : Int) then
          JData.bin (((acc ++ [bs]) ++ ext).getD
            (((acc.length : Nat) : Int)).toNat [])
        else .null) = .bin bs
    rw [if_pos (by
      constructor
      · positivity
      · simp only [List.length_append, List.length_singleton]
        push_cast
        omega)]
    congr 1
    rw [Int.toNat_natCast, List.append_assoc, List.singleton_append]
    rw [List.getD_eq_getElem?_getD, List.getElem?_append_right (le_refl _)]
    simp
  | arr xs =>
    intro acc ext h
    show walkRecon ((walkDeconA xs acc).2 ++ ext) (.arr (walkDeconA xs acc).1) =
      .arr xs
    simp only [walkRecon]
    rw [reconDeconA xs acc ext (by simpa [noPh] using h)]
  | obj fs =>
    intro acc ext h
    show walkRecon ((walkDeconO fs acc).2 ++ ext) (.obj (walkDeconO fs acc).1) =
      .obj fs
    simp only [noPh, Bool.and_eq_true, Bool.not_eq_true'] at h
    simp only [walkRecon]
    rw [if_neg (by rw [isPhLike_decon fs acc, h.1]; simp)]
    rw [reconDeconO fs acc ext h.2]
termination_by sizeOf d

theorem reconDeconA (xs : JArr) :
    ∀ (acc ext : List (List Nat)), noPhA xs = true →
      walkReconA ((walkDeconA xs acc).2 ++ ext) (walkDeconA xs acc).1 = xs := by
  cases xs with
  | anil => intro acc ext h; rfl
  | acons hd t =>
    intro acc ext h
    simp only [noPhA, Bool.and_eq_true] at h
    obtain ⟨dlt, hdlt⟩ := deconPrefixA t (walkDecon hd acc).2
    show walkReconA ((walkDeconA t (walkDecon hd acc).2).2 ++ ext)
        (.acons (walkDecon hd acc).1 (walkDeconA t (walkDecon hd acc).2).1) = _
    rw [walkReconA]
    rw [reconDeconA t (walkDecon hd acc).2 ext h.2]
    rw [hdlt, List.append_assoc]
    rw [reconDeconV hd acc (dlt ++ ext) h.1]
termination_by sizeOf xs

theorem reconDeconO (fs : JObj) :
    ∀ (acc ext : List (List Nat)), noPhO fs = true →
      walkReconO ((walkDeconO fs acc).2 ++ ext) (walkDeconO fs acc).1 = fs := by
  cases fs with
  | onil => intro acc ext h; rfl
  | ocons k v t =>
    intro acc ext h
    simp only [noPhO, Bool.and_eq_true] at h
    obtain ⟨dlt, hdlt⟩ := deconPrefixO t (walkDecon v acc).2
    show walkReconO ((walkDeconO t (walkDecon v acc).2).2 ++ ext)
        (.ocons k (walkDecon v acc).1 (walkDeconO t (walkDecon v acc).2).1) = _
    rw [walkReconO]
    rw [reconDeconO t (walkDecon v acc).2 ext h.2]
    rw [hdlt, List.append_assoc]
    rw [reconDeconV v acc (dlt ++ ext) h.1]
termination_by sizeOf fs
end

/-- Top-level round trip of the placeholder algorithm. -/
theorem reconstruct_deconstruct {d : JData} (h : noPh d = true) :
    reconstruct_data (deconstruct_data d).1 (deconstruct_data d).2 = d := by
  have hr := reconDeconV d [] [] h
  rw [List.append_nil] at hr
  exact hr

/-! ### Parser lemmas for the round trip -/

theorem spanDigits_notDig {l : List Char} (h : notDigHead l) :
    spanDigits l = ([], l) := by
  cases l with
  | nil => rfl
  | cons c r =>
    simp only [notDigHead] at h
    simp [spanDigits, h]

theorem splitAtComma_append {a : List Char} (b : List Char)
    (ha : ',' ∉ a) : splitAtComma (a ++ ',' :: b) = some (a, b) := by
  induction a with
  | nil => simp [splitAtComma]
  | cons c r ih =>
    have hc : ¬ c = ',' := fun hh => ha (by simp [hh])
    simp only [List.cons_append, splitAtComma, if_neg hc]
    simp only [List.append_eq]
    rw [ih (fun hm => ha (by simp [hm]))]
    rfl

theorem attCount_binary {p_type : Nat}
    (hty : p_type = SIO_BINARY_EVENT ∨ p_type = SIO_BINARY_ACK)
    (N : Nat) (rest1 : List Char) :
    attCount p_type (natDigits N ++ '-' :: rest1) = some (N, rest1) := by
  rw [attCount, if_pos hty,
    spanDigits_append _ _ (natDigits_all_dig N) (notDigHead_cons _ (by decide))]
  show (if ('-' : Char) = '-' ∧ natDigits N ≠ [] then
      some (valOfDigits (natDigits N), rest1) else none) = _
  rw [if_pos ⟨rfl, natDigits_ne_nil N⟩, valOfDigits_natDigits]

theorem nsSplit_slash {ns : List Char} (nsRest rest2 : List Char)
    (hns : ns = '/' :: nsRest) (hnc : ',' ∉ ns) :
    nsSplit (ns ++ ',' :: rest2) = some (ns, rest2) := by
  subst hns
  simp only [List.cons_append, nsSplit, if_pos rfl]
  rw [show ('/' : Char) :: (nsRest ++ ',' :: rest2) =
    ('/' :: nsRest) ++ ',' :: rest2 from rfl]
  rw [splitAtComma_append rest2 hnc]
  simp

theorem nsSplit_noSlash {rest1 : List Char}
    (h : ∀ c r, rest1 = c :: r → c ≠ '/') :
    nsSplit rest1 = some (DEFAULT_NAMESPACE, rest1) := by
  cases rest1 with
  | nil => rfl
  | cons c r =>
    simp only [nsSplit]
    rw [if_neg (h c r rfl)]

/-- One-step unfolding of `_handle_text` on a fresh parser, past the
first-digit check. -/
theorem handleText_digit {first : Char} (rest0 : List Char)
    (hfirst : isDig first = true) :
    handleText ⟨none⟩ (first :: rest0) =
      match attCount (digVal first) rest0 with
      | none => (⟨none⟩, [])
      | some (attachments, rest1) =>
        match nsSplit rest1 with
        | none => (⟨none⟩, [])
        | some (nsp, rest2) =>
          let sp := spanDigits rest2
          let ack_id : Option Nat :=
            if sp.1 = [] then none else some (valOfDigits sp.1)
          let rest3 := sp.2
          let json_data : JData :=
            if rest3 = [] then .null else (json_loads rest3).getD .null
          let pkt : SocketIOPacket :=
            { type := digVal first, nsp := nsp, data := json_data,
              id := ack_id, attachments := 0 }
          if digVal first = SIO_BINARY_EVENT ∨ digVal first = SIO_BINARY_ACK
          then
            let pkt2 := { pkt with attachments := attachments }
            ((⟨some ⟨pkt2, attachments, []⟩⟩ : SocketIOParser), [])
          else ((⟨none⟩ : SocketIOParser), [pkt]) := by
  simp only [handleText]
  rw [if_pos hfirst]

/-! ### Feeding binary attachments -/

/-- Feeding strictly fewer binaries than expected only accumulates. -/
theorem feedAll_binaries_fewer (pkt : SocketIOPacket) (N : Nat) :
    ∀ (toFeed bufs : List (List Nat)),
      bufs.length + toFeed.length < N →
      feedAll ⟨some ⟨pkt, N, bufs⟩⟩ (toFeed.map .binary) =
        (⟨some ⟨pkt, N, bufs ++ toFeed⟩⟩, []) := by
  intro toFeed
  induction toFeed with
  | nil => intro bufs h; simp [feedAll]
  | cons b bs ih =>
    intro bufs h
    simp only [List.map_cons, feedAll, feed_eio_message,
      handleBinaryAttachment]
    rw [if_pos (by simp only [List.length_append, List.length_singleton,
      List.length_cons, List.length_nil] at h ⊢; omega)]
    rw [ih (bufs ++ [b]) (by simp only [List.length_append,
      List.length_singleton, List.length_cons, List.length_nil] at h ⊢; omega)]
    simp

/-- Feeding exactly the expected number of binaries yields the completed
packet on the last one (and nothing before). -/
theorem feedAll_binaries_exact (pkt : SocketIOPacket) (N : Nat) :
    ∀ (toFeed bufs : List (List Nat)), toFeed ≠ [] →
      bufs.length + toFeed.length = N →
      feedAll ⟨some ⟨pkt, N, bufs⟩⟩ (toFeed.map .binary) =
        (⟨none⟩, [completedPkt pkt (bufs ++ toFeed)]) := by
  intro toFeed
  induction toFeed with
  | nil => intro bufs hne; exact absurd rfl hne
  | cons b bs ih =>
    intro bufs hne h
    simp only [List.map_cons, feedAll, feed_eio_message,
      handleBinaryAttachment]
    cases bs with
    | nil =>
      rw [if_neg (by simp only [List.length_append, List.length_singleton,
        List.length_cons, List.length_nil] at h ⊢; omega)]
      simp [feedAll, completedPkt]
    | cons b2 bs2 =>
      rw [if_pos (by simp only [List.length_append, List.length_singleton,
        List.length_cons, List.length_nil] at h ⊢; omega)]
      have harith : (bufs ++ [b]).length + (b2 :: bs2).length = N := by
        simp only [List.length_append, List.length_singleton,
          List.length_cons, List.length_nil] at h ⊢
        omega
      rw [ih (bufs ++ [b]) (by simp) harith]
      simp

/-! ### Deconstruction facts needed by the encoder round trip -/

mutual
theorem binFree_deconV (d : JData) :
    ∀ acc, binFree (walkDecon d acc).1 = true := by
  cases d with
  | null => intro acc; rfl
  | bool b => intro acc; rfl
  | num n => intro acc; rfl
  | str s => intro acc; rfl
  | bin bs => intro acc; rfl
  | arr xs =>
    intro acc
    show binFree (.arr (walkDeconA xs acc).1) = true
    simp only [binFree]
    exact binFree_deconA xs acc
  | obj fs =>
    intro acc
    show binFree (.obj (walkDeconO fs acc).1) = true
    simp only [binFree]
    exact binFree_deconO fs acc
termination_by sizeOf d

theorem binFree_deconA (xs : JArr) :
    ∀ acc, binFreeA (walkDeconA xs acc).1 = true := by
  cases xs with
  | anil => intro acc; rfl
  | acons h t =>
    intro acc
    show binFreeA (.acons (walkDecon h acc).1
      (walkDeconA t (walkDecon h acc).2).1) = true
    simp only [binFreeA, Bool.and_eq_true]
    exact ⟨binFree_deconV h acc, binFree_deconA t (walkDecon h acc).2⟩
termination_by sizeOf xs

theorem binFree_deconO (fs : JObj) :
    ∀ acc, binFreeO (walkDeconO fs acc).1 = true := by
  cases fs with
  | onil => intro acc; rfl
  | ocons k v t =>
    intro acc
    show binFreeO (.ocons k (walkDecon v acc).1
      (walkDeconO t (walkDecon v acc).2).1) = true
    simp only [binFreeO, Bool.and_eq_true]
    exact ⟨binFree_deconV v acc, binFree_deconO t (walkDecon v acc).2⟩
termination_by sizeOf fs
end

mutual
theorem dumpVal_total (d : JData) :
    binFree d = true → ∃ cs, dumpVal d = some cs := by
  cases d with
  | null => exact fun _ => ⟨_, rfl⟩
  | bool b => cases b <;> exact fun _ => ⟨_, rfl⟩
  | num n => exact fun _ => ⟨_, rfl⟩
  | str s => exact fun _ => ⟨_, rfl⟩
  | bin bs => intro h; simp [binFree] at h
  | arr xs =>
    intro h
    obtain ⟨de, hde⟩ := dumpElems_total xs (by simpa [binFree] using h)
    exact ⟨_, by simp only [dumpVal]; rw [hde]; rfl⟩
  | obj fs =>
    intro h
    obtain ⟨dm, hdm⟩ := dumpMembers_total fs (by simpa [binFree] using h)
    exact ⟨_, by simp only [dumpVal]; rw [hdm]; rfl⟩
termination_by sizeOf d

theorem dumpElems_total (xs : JArr) :
    binFreeA xs = true → ∃ cs, dumpElems xs = some cs := by
  cases xs with
  | anil => exact fun _ => ⟨_, rfl⟩
  | acons h t =>
    intro hb
    simp only [binFreeA, Bool.and_eq_true] at hb
    obtain ⟨cs1, h1⟩ := dumpVal_total h hb.1
    cases t with
    | anil => exact ⟨cs1, by simp only [dumpElems]; exact h1⟩
    | acons h2 t2 =>
      obtain ⟨cs2, h2'⟩ := dumpElems_total (.acons h2 t2) hb.2
      exact ⟨cs1 ++ ',' :: cs2, by
        simp only [dumpElems] at h2' ⊢
        rw [h1, h2']
        rfl⟩
termination_by sizeOf xs

theorem dumpMembers_total (fs : JObj) :
    binFreeO fs = true → ∃ cs, dumpMembers fs = some cs := by
  cases fs with
  | onil => exact fun _ => ⟨_, rfl⟩
  | ocons k v t =>
    intro hb
    simp only [binFreeO, Bool.and_eq_true] at hb
    obtain ⟨cs1, h1⟩ := dumpVal_total v hb.1
    cases t with
    | onil =>
      exact ⟨escStr k ++ ':' :: cs1, by
        simp only [dumpMembers]
        rw [h1]
        rfl⟩
    | ocons k2 v2 t2 =>
      obtain ⟨cs2, h2'⟩ := dumpMembers_total (.ocons k2 v2 t2) hb.2
      exact ⟨escStr k ++ ':' :: cs1 ++ ',' :: cs2, by
        simp only [dumpMembers] at h2' ⊢
        rw [h1, h2']
        rfl⟩
termination_by sizeOf fs
end

theorem walkDecon_len_ge (d : JData) (acc : List (List Nat)) :
    acc.length ≤ (walkDecon d acc).2.length := by
  obtain ⟨δ, hδ⟩ := deconPrefixV d acc
  simp [hδ]

theorem walkDeconA_len_ge (xs : JArr) (acc : List (List Nat)) :
    acc.length ≤ (walkDeconA xs acc).2.length := by
  obtain ⟨δ, hδ⟩ := deconPrefixA xs acc
  simp [hδ]

theorem walkDeconO_len_ge (fs : JObj) (acc : List (List Nat)) :
    acc.length ≤ (walkDeconO fs acc).2.length := by
  obtain ⟨δ, hδ⟩ := deconPrefixO fs acc
  simp [hδ]

mutual
theorem deconGrowV (d : JData) :
    ∀ acc, binFree d = false → acc.length < (walkDecon d acc).2.length := by
  cases d with
  | null => intro acc h; simp [binFree] at h
  | bool b => intro acc h; simp [binFree] at h
  | num n => intro acc h; simp [binFree] at h
  | str s => intro acc h; simp [binFree] at h
  | bin bs => intro acc h; simp [walkDecon]
  | arr xs =>
    intro acc h
    show acc.length < (walkDeconA xs acc).2.length
    exact deconGrowA xs acc (by simpa [binFree] using h)
  | obj fs =>
    intro acc h
    show acc.length < (walkDeconO fs acc).2.length
    exact deconGrowO fs acc (by simpa [binFree] using h)
termination_by sizeOf d

theorem deconGrowA (xs : JArr) :
    ∀ acc, binFreeA xs = false → acc.length < (walkDeconA xs acc).2.length := by
  cases xs with
  | anil => intro acc h; simp [binFreeA] at h
  | acons hd t =>
    intro acc h
    show acc.length < (walkDeconA t (walkDecon hd acc).2).2.length
    rcases Bool.and_eq_false_iff.mp (by simpa [binFreeA] using h) with h1 | h2
    · calc acc.length < (walkDecon hd acc).2.length := deconGrowV hd acc h1
        _ ≤ _ := walkDeconA_len_ge t (walkDecon hd acc).2
    · calc acc.length ≤ (walkDecon hd acc).2.length := walkDecon_len_ge hd acc
        _ < _ := deconGrowA t (walkDecon hd acc).2 h2
termination_by sizeOf xs

theorem deconGrowO (fs : JObj) :
    ∀ acc, binFreeO fs = false → acc.length < (walkDeconO fs acc).2.length := by
  cases fs with
  | onil => intro acc h; simp [binFreeO] at h
  | ocons k v t =>
    intro acc h
    show acc.length < (walkDeconO t (walkDecon v acc).2).2.length
    rcases Bool.and_eq_false_iff.mp (by simpa [binFreeO] using h) with h1 | h2
    · calc acc.length < (walkDecon v acc).2.length := deconGrowV v acc h1
        _ ≤ _ := walkDeconO_len_ge t (walkDecon v acc).2
    · calc acc.length ≤ (walkDecon v acc).2.length := walkDecon_len_ge v acc
        _ < _ := deconGrowO t (walkDecon v acc).2 h2
termination_by sizeOf fs
end

theorem decon_atts_ne_nil {d : JData} (h : binFree d = false) :
    (deconstruct_data d).2 ≠ [] := by
  have := deconGrowV d [] h
  intro hc
  rw [show (deconstruct_data d).2 = (walkDecon d []).2 from rfl] at hc
  rw [hc] at this
  simp at this

theorem decon_shape {d : JData} (h : binFree d = false) :
    (∃ xs, (deconstruct_data d).1 = .arr xs) ∨
      (∃ fs, (deconstruct_data d).1 = .obj fs) := by
  cases d with
  | null => simp [binFree] at h
  | bool b => simp [binFree] at h
  | num n => simp [binFree] at h
  | str s => simp [binFree] at h
  | bin bs => exact .inr ⟨_, rfl⟩
  | arr xs => exact .inl ⟨_, rfl⟩
  | obj fs => exact .inr ⟨_, rfl⟩

theorem binFree_data_ne_null {d : JData} (h : binFree d = false) :
    d ≠ .null := by
  intro hc
  subst hc
  simp [binFree] at h

theorem dump_head_bracket {d' : JData} {js : List Char}
    (hshape : (∃ xs, d' = .arr xs) ∨ (∃ fs, d' = .obj fs))
    (hjs : dumpVal d' = some js) :
    ∃ js', js = '[' :: js' ∨ js = '\x7b' :: js' := by
  rcases hshape with ⟨xs, rfl⟩ | ⟨fs, rfl⟩
  · simp only [dumpVal] at hjs
    cases hde : dumpElems xs with
    | none => rw [hde] at hjs; exact Option.noConfusion hjs
    | some de =>
      rw [hde] at hjs
      injection hjs with hjs
      exact ⟨de ++ [']'], .inl hjs.symm⟩
  · simp only [dumpVal] at hjs
    cases hdm : dumpMembers fs with
    | none => rw [hdm] at hjs; exact Option.noConfusion hjs
    | some dm =>
      rw [hdm] at hjs
      injection hjs with hjs
      exact ⟨dm ++ ['\x7d'], .inr hjs.symm⟩

theorem decon_fst_ne_null {d : JData} (h : binFree d = false) :
    (deconstruct_data d).1 ≠ .null := by
  rcases decon_shape h with ⟨xs, hx⟩ | ⟨fs, hx⟩ <;> rw [hx] <;>
    exact fun hc => JData.noConfusion hc

/-- The encoder on an EVENT/ACK packet whose data deconstructs to a
nonempty attachment list takes the binary branch: header =
type digit, attachment count, `-`, optional namespace with `,`,
optional ack id, JSON dump; attachments = the deconstructed buffers. -/
theorem encode_binary_shape (pkt : SocketIOPacket)
    (hty : pkt.type = SIO_EVENT ∨ pkt.type = SIO_ACK)
    (hdnn : pkt.data ≠ .null)
    (hnsne : pkt.nsp ≠ [])
    (hattsne : (deconstruct_data pkt.data).2 ≠ [])
    (hd1nn : (deconstruct_data pkt.data).1 ≠ .null)
    {js : List Char} (hjs : dumpVal (deconstruct_data pkt.data).1 = some js) :
    encode_packet_to_eio pkt =
      some ((natDigits
          (if pkt.type = SIO_EVENT then SIO_BINARY_EVENT else SIO_BINARY_ACK) ++
        (natDigits (deconstruct_data pkt.data).2.length ++ ['-']) ++
        (if pkt.nsp ≠ DEFAULT_NAMESPACE then pkt.nsp ++ [','] else []) ++
        (match pkt.id with | some i => natDigits i | none => [])) ++ js,
        (deconstruct_data pkt.data).2) := by
  by_cases hE : pkt.type = SIO_EVENT
  · simp only [encode_packet_to_eio, hE, if_neg hnsne]
    simp [hdnn, hattsne, hd1nn, hjs]
  · have hA : pkt.type = SIO_ACK := hty.resolve_left hE
    simp only [encode_packet_to_eio, hA, if_neg hnsne]
    simp [hdnn, hattsne, hd1nn, hjs]
    rw [if_pos (by decide)]
    simp

/-- Feeding the binary header produced by the encoder to a fresh parser
accepts it: the accumulator is armed with the parsed packet and expected
count, and nothing is yielded yet.  `c :: jr` is the JSON payload, whose
first character is neither a digit nor `/`. -/
theorem handleText_binary_header (tc : Char) (N : Nat) (ns : List Char)
    (idOpt : Option Nat) (c : Char) (jr : List Char)
    (htc : isDig tc = true)
    (hty : digVal tc = SIO_BINARY_EVENT ∨ digVal tc = SIO_BINARY_ACK)
    (hns : ∃ r, ns = '/' :: r) (hnc : ',' ∉ ns)
    (hjc : isDig c = false) (hjsl : c ≠ '/') :
    handleText ⟨none⟩
      (([tc] ++ (natDigits N ++ ['-']) ++
        (if ns ≠ DEFAULT_NAMESPACE then ns ++ [','] else []) ++
        (match idOpt with | some i => natDigits i | none => [])) ++ (c :: jr)) =
      (⟨some ⟨{ type := digVal tc, nsp := ns,
                data := (json_loads (c :: jr)).getD .null,
                id := idOpt, attachments := N }, N, []⟩⟩, []) := by
  have hrw : (([tc] ++ (natDigits N ++ ['-']) ++
        (if ns ≠ DEFAULT_NAMESPACE then ns ++ [','] else []) ++
        (match idOpt with | some i => natDigits i | none => [])) ++ (c :: jr)) =
      tc :: (natDigits N ++ '-' ::
        ((if ns ≠ DEFAULT_NAMESPACE then ns ++ [','] else []) ++
         ((match idOpt with | some i => natDigits i | none => []) ++
          (c :: jr)))) := by
    simp
  rw [hrw, handleText_digit _ htc, attCount_binary hty N _]
  obtain ⟨nsRest, hnsr⟩ := hns
  have hcn : ∀ c' r', (c :: jr) = c' :: r' → c' ≠ '/' := by
    intro c' r' he
    injection he with h1 _
    rw [← h1]
    exact hjsl
  cases idOpt with
  | none =>
    by_cases hd : ns = DEFAULT_NAMESPACE
    · subst hd
      simp [nsSplit_noSlash hcn, spanDigits_notDig (notDigHead_cons jr hjc),
        hty]
    · simp [hd, nsSplit_slash nsRest (c :: jr) hnsr hnc,
        spanDigits_notDig (notDigHead_cons jr hjc), hty]
  | some i =>
    obtain ⟨d0, ds0, hnd, hdd⟩ := natDigits_cons i
    have hspan : spanDigits (natDigits i ++ c :: jr) = (natDigits i, c :: jr) :=
      spanDigits_append _ _ (natDigits_all_dig i) (notDigHead_cons jr hjc)
    have hcn2 : ∀ c' r', (natDigits i ++ c :: jr) = c' :: r' → c' ≠ '/' := by
      intro c' r' he
      rw [hnd] at he
      injection he with h1 _
      rw [← h1]
      intro hc0
      rw [hc0] at hdd
      exact absurd hdd (by decide)
    by_cases hd : ns = DEFAULT_NAMESPACE
    · subst hd
      simp [nsSplit_noSlash hcn2, hspan, natDigits_ne_nil i,
        valOfDigits_natDigits, hty]
    · simp [hd, nsSplit_slash nsRest (natDigits i ++ c :: jr) hnsr hnc,
        hspan, natDigits_ne_nil i, valOfDigits_natDigits, hty]

/-- C1: for every Socket.IO EVENT or ACK packet whose data contains binary
values but no placeholder-shaped dict, and whose namespace starts with `/`
and contains no comma, encoding with `encode_packet_to_eio` into
`(header, attachments)` and feeding the header as a text message followed
by each attachment as a binary message to a fresh `SocketIOParser` yields
exactly one packet whose namespace, ack id and data equal the original's
(the attachments are exactly the deconstructed binary buffers, so every
binary payload is preserved byte-exactly). -/
theorem c1_encode_feed_round_trip (pkt : SocketIOPacket)
    (hty : pkt.type = SIO_EVENT ∨ pkt.type = SIO_ACK)
    (hbin : binFree pkt.data = false)
    (hph : noPh pkt.data = true)
    (hns : ∃ nsRest, pkt.nsp = '/' :: nsRest)
    (hnc : ',' ∉ pkt.nsp) :
    ∃ header atts,
      encode_packet_to_eio pkt = some (header, atts) ∧
      atts = (deconstruct_data pkt.data).2 ∧
      ∃ out : SocketIOPacket,
        feedAll ⟨none⟩ (.text header :: atts.map .binary) = (⟨none⟩, [out]) ∧
        out.nsp = pkt.nsp ∧ out.id = pkt.id ∧ out.data = pkt.data := by
  have hdnn : pkt.data ≠ .null := binFree_data_ne_null hbin
  have hattsne : (deconstruct_data pkt.data).2 ≠ [] := decon_atts_ne_nil hbin
  have hbf : binFree (deconstruct_data pkt.data).1 = true :=
    binFree_deconV pkt.data []
  obtain ⟨js, hjs⟩ := dumpVal_total _ hbf
  have hd1nn : (deconstruct_data pkt.data).1 ≠ .null := decon_fst_ne_null hbin
  have hnsne : pkt.nsp ≠ [] := by
    obtain ⟨nsRest, hnsr⟩ := hns
    rw [hnsr]
    exact fun hc => List.noConfusion hc
  have hjl : json_loads js = some (deconstruct_data pkt.data).1 :=
    json_loads_dump hjs
  -- the head of the JSON dump is '[' or the opening brace
  obtain ⟨js', hhead⟩ := dump_head_bracket (decon_shape hbin) hjs
  have henc := encode_binary_shape pkt hty hdnn hnsne hattsne hd1nn hjs
  refine ⟨_, _, henc, rfl, ?_⟩
  -- type digit of the upgraded packet
  have hnat : natDigits
      (if pkt.type = SIO_EVENT then SIO_BINARY_EVENT else SIO_BINARY_ACK) =
      [if pkt.type = SIO_EVENT then '5' else '6'] := by
    by_cases hE : pkt.type = SIO_EVENT <;> simp [hE] <;> decide
  have htc : isDig (if pkt.type = SIO_EVENT then '5' else '6') = true := by
    by_cases hE : pkt.type = SIO_EVENT <;> simp [hE] <;> decide
  have htyd : digVal (if pkt.type = SIO_EVENT then '5' else '6') =
        SIO_BINARY_EVENT ∨
      digVal (if pkt.type = SIO_EVENT then '5' else '6') = SIO_BINARY_ACK := by
    by_cases hE : pkt.type = SIO_EVENT <;> simp [hE] <;> decide
  rcases hhead with hh | hh
  · subst hh
    rw [hnat]
    simp only [feedAll, feed_eio_message]
    rw [handleText_binary_header _ ((deconstruct_data pkt.data).2.length)
      pkt.nsp pkt.id '[' js' htc htyd hns hnc (by decide) (by decide)]
    rw [feedAll_binaries_exact _ ((deconstruct_data pkt.data).2.length)
      (deconstruct_data pkt.data).2 [] hattsne (by simp)]
    refine ⟨_, rfl, ?_, ?_, ?_⟩
    · simp only [completedPkt]
      split <;> rfl
    · simp only [completedPkt]
      split <;> rfl
    · simp only [completedPkt, List.nil_append]
      rw [hjl]
      simp only [Option.getD_some]
      rw [if_pos hd1nn]
      show reconstruct_data (deconstruct_data pkt.data).1
        (deconstruct_data pkt.data).2 = pkt.data
      exact reconstruct_deconstruct hph
  · subst hh
    rw [hnat]
    simp only [feedAll, feed_eio_message]
    rw [handleText_binary_header _ ((deconstruct_data pkt.data).2.length)
      pkt.nsp pkt.id '\x7b' js' htc htyd hns hnc (by decide) (by decide)]
    rw [feedAll_binaries_exact _ ((deconstruct_data pkt.data).2.length)
      (deconstruct_data pkt.data).2 [] hattsne (by simp)]
    refine ⟨_, rfl, ?_, ?_, ?_⟩
    · simp only [completedPkt]
      split <;> rfl
    · simp only [completedPkt]
      split <;> rfl
    · simp only [completedPkt, List.nil_append]
      rw [hjl]
      simp only [Option.getD_some]
      rw [if_pos hd1nn]
      show reconstruct_data (deconstruct_data pkt.data).1
        (deconstruct_data pkt.data).2 = pkt.data
      exact reconstruct_deconstruct hph

/-- Witness for C1 at a concrete binary EVENT packet
(`nsp = "/c"`, ack id 12, data `["x", b"\xde\xad"]`). -/
theorem c1_encode_feed_round_trip_witness :
    ∃ header atts,
      encode_packet_to_eio
        { type := SIO_EVENT, nsp := ['/', 'c'],
          data := .arr (.acons (.str ['x']) (.acons (.bin [222, 173]) .anil)),
          id := some 12, attachments := 0 } = some (header, atts) ∧
      atts = (deconstruct_data
        (.arr (.acons (.str ['x']) (.acons (.bin [222, 173]) .anil)))).2 ∧
      ∃ out : SocketIOPacket,
        feedAll ⟨none⟩ (.text header :: atts.map .binary) = (⟨none⟩, [out]) ∧
        out.nsp = ['/', 'c'] ∧ out.id = some 12 ∧
        out.data = .arr (.acons (.str ['x']) (.acons (.bin [222, 173]) .anil)) :=
  c1_encode_feed_round_trip _ (Or.inl rfl) (by decide) (by decide)
    ⟨['c'], rfl⟩ (by decide)

/-- C5 (amended): binary-packet accumulation.  With the accumulator armed
for `N` expected attachments: (i) strictly fewer binaries than `N` only
accumulate and yield nothing; (ii) when the count reaches `N` (with at
least one binary fed) the parser yields exactly the completed packet —
placeholders replaced via `reconstruct_data` — and resets; (iii) for
`N = 0` the packet is NOT yielded at header time but on the first
subsequent binary message; (iv) a NONEMPTY text message mid-accumulation
drops the accumulator and yields nothing. -/
theorem c5_parser_accumulation (pkt : SocketIOPacket) (N : Nat)
    (bufs toFeed : List (List Nat)) (b : List Nat) (c : Char)
    (s : List Char) :
    (bufs.length + toFeed.length < N →
      feedAll ⟨some ⟨pkt, N, bufs⟩⟩ (toFeed.map .binary) =
        (⟨some ⟨pkt, N, bufs ++ toFeed⟩⟩, [])) ∧
    (toFeed ≠ [] → bufs.length + toFeed.length = N →
      feedAll ⟨some ⟨pkt, N, bufs⟩⟩ (toFeed.map .binary) =
        (⟨none⟩, [completedPkt pkt (bufs ++ toFeed)])) ∧
    (handleBinaryAttachment ⟨some ⟨pkt, 0, bufs⟩⟩ b =
      (⟨none⟩, [completedPkt pkt (bufs ++ [b])])) ∧
    (handleText ⟨some ⟨pkt, N, bufs⟩⟩ (c :: s) = (⟨none⟩, [])) := by
  refine ⟨feedAll_binaries_fewer pkt N toFeed bufs,
    feedAll_binaries_exact pkt N toFeed bufs, ?_, rfl⟩
  simp only [handleBinaryAttachment]
  rw [if_neg (Nat.not_lt_zero _)]
  rfl

/-- Counterexample to C5 as stated: a BINARY_EVENT header declaring 0
attachments (`"50-[]"`) does NOT yield the packet immediately when the
header is processed (it arms the accumulator and yields nothing), and an
empty text message arriving mid-accumulation does NOT drop the
accumulator. -/
theorem c5_counterexample :
    (handleText ⟨none⟩ ['5', '0', '-', '[', ']']).2 = [] ∧
    (handleText ⟨none⟩ ['5', '0', '-', '[', ']']).1 ≠ ⟨none⟩ ∧
    (handleText (handleText ⟨none⟩ ['5', '0', '-', '[', ']']).1 []).1 =
      (handleText ⟨none⟩ ['5', '0', '-', '[', ']']).1 := by
  decide

/-- Witness for C5's amended theorem at a concrete accumulator. -/
theorem c5_parser_accumulation_witness :
    (feedAll ⟨some ⟨{ type := 5 }, 2, []⟩⟩ ([[1]].map .binary) =
      (⟨some ⟨{ type := 5 }, 2, [[1]]⟩⟩, [])) ∧
    (feedAll ⟨some ⟨{ type := 5 }, 2, []⟩⟩ ([[1], [2]].map .binary) =
      (⟨none⟩, [completedPkt { type := 5 } [[1], [2]]])) ∧
    (handleBinaryAttachment ⟨some ⟨{ type := 5 }, 0, []⟩⟩ [9] =
      (⟨none⟩, [completedPkt { type := 5 } [[9]]])) ∧
    (handleText ⟨some ⟨{ type := 5 }, 2, []⟩⟩ ['4'] = (⟨none⟩, [])) :=
  ⟨(c5_parser_accumulation { type := 5 } 2 [] [[1]] [9] '4' []).1 (by decide),
   (c5_parser_accumulation { type := 5 } 2 [] [[1], [2]] [9] '4' []).2.1
     (by decide) (by decide),
   (c5_parser_accumulation { type := 5 } 0 [] [] [9] '4' []).2.2.1,
   (c5_parser_accumulation { type := 5 } 2 [] [] [9] '4' []).2.2.2⟩

theorem drainSegments_le (maxPayload : Nat) :
    ∀ (segs : List (List Char)) (acc : List Char) (total : Nat)
      (anyPart : Bool), utf8Len acc = total → total ≤ maxPayload →
      utf8Len (drainSegments maxPayload segs acc total anyPart).1 ≤
        maxPayload := by
  intro segs
  induction segs with
  | nil => intro acc total anyPart h1 h2; rw [drainSegments, h1]; exact h2
  | cons seg rest ih =>
    intro acc total anyPart h1 h2
    rw [drainSegments]
    by_cases hov : maxPayload <
        total + utf8Len (if anyPart then RECORD_SEPARATOR :: seg else seg)
    · rw [if_pos hov, h1]
      exact h2
    · rw [if_neg hov]
      refine ih _ _ _ ?_ (by omega)
      rw [utf8Len_append, h1]

/-- When a fitting prefix `pre` is followed by a segment `over` that would
overflow, the drain returns the joined prefix and requeues `over` alone:
the remaining segments are abandoned. -/
theorem drainSegments_overflow (maxPayload : Nat) :
    ∀ (pre : List (List Char)) (over : List Char) (rest : List (List Char))
      (acc : List Char) (total : Nat) (anyPart : Bool),
      total = utf8Len acc →
      total + utf8Len (rsJoinFrom anyPart pre) ≤ maxPayload →
      maxPayload < total + utf8Len (rsJoinFrom anyPart pre) +
        utf8Len (if anyPart || !pre.isEmpty then RECORD_SEPARATOR :: over
          else over) →
      drainSegments maxPayload (pre ++ over :: rest) acc total anyPart =
        (acc ++ rsJoinFrom anyPart pre, [over]) := by
  intro pre
  induction pre with
  | nil =>
    intro over rest acc total anyPart h1 h2 h3
    simp only [rsJoinFrom, utf8Len_nil, Nat.add_zero, List.isEmpty_nil,
      Bool.not_true, Bool.or_false] at h3
    simp only [List.nil_append, drainSegments, rsJoinFrom]
    rw [if_pos h3]
    simp
  | cons p ps ih =>
    intro over rest acc total anyPart h1 h2 h3
    have he : rsJoinFrom anyPart (p :: ps) =
        (if anyPart then RECORD_SEPARATOR :: p else p) ++
          rsJoinFrom true ps := rfl
    rw [he, utf8Len_append] at h2 h3
    simp only [List.isEmpty_cons, Bool.not_false, Bool.or_true] at h3
    simp only [List.cons_append, drainSegments]
    rw [if_neg (by omega)]
    simp only [List.append_eq]
    have hrec := ih over rest
      (acc ++ (if anyPart then RECORD_SEPARATOR :: p else p))
      (total + utf8Len (if anyPart then RECORD_SEPARATOR :: p else p)) true
      (by rw [utf8Len_append, h1])
      (by omega)
      (by simp only [List.isEmpty_cons, Bool.true_or, Bool.not_false]
          omega)
    rw [hrec, he]
    simp [List.append_assoc]

/-- C2: the payload returned by a polling GET drain never exceeds the
payload limit, and if the first dequeued segment alone exceeds the limit
the returned payload is empty. -/
theorem c2_payload_bounded (maxPayload : Nat) (s : EngineIOSession) :
    utf8Len (http_next_payload maxPayload s).1 ≤ maxPayload ∧
    (∀ seg rest, s.queue = seg :: rest → maxPayload < utf8Len seg →
      (http_next_payload maxPayload s).1 = []) := by
  constructor
  · cases hq : s.queue with
    | nil =>
      simp only [http_next_payload, hq, utf8Len_nil]
      exact Nat.zero_le _
    | cons seg rest =>
      simp only [http_next_payload, hq]
      exact drainSegments_le maxPayload (seg :: rest) [] 0 false rfl
        (Nat.zero_le _)
  · intro seg rest hq hbig
    simp only [http_next_payload, hq]
    show (drainSegments maxPayload (seg :: rest) [] 0 false).1 = []
    simp only [drainSegments]
    rw [if_pos (show maxPayload < 0 + utf8Len
      (if (false : Bool) then RECORD_SEPARATOR :: seg else seg) by
        simpa using hbig)]

/-- Witness for C2: limit 3, one four-byte segment: the payload is within
the limit, indeed empty. -/
theorem c2_payload_bounded_witness :
    utf8Len (http_next_payload 3 ⟨[['a', 'b', 'c', 'd']], false, false⟩).1
      ≤ 3 ∧
    (http_next_payload 3 ⟨[['a', 'b', 'c', 'd']], false, false⟩).1 = [] :=
  ⟨(c2_payload_bounded 3 _).1,
   (c2_payload_bounded 3 _).2 ['a', 'b', 'c', 'd'] [] rfl (by decide)⟩

/-- C3 (amended): when the drain hits the size limit, the payload is the
`RECORD_SEPARATOR`-join of the maximal fitting prefix and the queue
afterwards holds ONLY the first overflowing segment — the segments after
it are discarded, not requeued. -/
theorem c3_overflow_requeue (maxPayload : Nat) (s : EngineIOSession)
    (pre : List (List Char)) (over : List Char) (rest : List (List Char))
    (hq : s.queue = pre ++ over :: rest)
    (hfits : utf8Len (rsJoinFrom false pre) ≤ maxPayload)
    (hover : maxPayload < utf8Len (rsJoinFrom false pre) +
      utf8Len (if !pre.isEmpty then RECORD_SEPARATOR :: over else over)) :
    http_next_payload maxPayload s =
      (rsJoinFrom false pre, { s with queue := [over] }) := by
  have hspec := drainSegments_overflow maxPayload pre over rest [] 0 false
    rfl (by simpa using hfits) (by simpa using hover)
  cases pre with
  | nil =>
    simp only [List.nil_append] at hq hspec
    simp only [http_next_payload, hq]
    rw [hspec]
    try simp [rsJoinFrom]
  | cons p ps =>
    simp only [List.cons_append] at hq hspec
    simp only [http_next_payload, hq]
    rw [hspec]
    try simp

/-- Counterexample to C3 as stated: limit 5, queue `["aaaa", "b", "c"]`.
The drain returns `"aaaa"` and requeues only `"b"`; the segment `"c"`,
although not included in the payload, is NOT in the queue afterwards. -/
theorem c3_counterexample :
    http_next_payload 5 ⟨[['a', 'a', 'a', 'a'], ['b'], ['c']],
        false, false⟩ =
      (['a', 'a', 'a', 'a'], ⟨[['b']], false, false⟩) ∧
    (http_next_payload 5 ⟨[['a', 'a', 'a', 'a'], ['b'], ['c']],
        false, false⟩).2.queue ≠ [['b'], ['c']] := by
  decide

/-- Witness for C3's amended theorem at the same concrete queue. -/
theorem c3_overflow_requeue_witness :
    http_next_payload 5 ⟨[['a', 'a', 'a', 'a'], ['b'], ['c']],
        false, false⟩ =
      (rsJoinFrom false [['a', 'a', 'a', 'a']],
        ⟨[['b']], false, false⟩) :=
  c3_overflow_requeue 5 _ [['a', 'a', 'a', 'a']] ['b'] [['c']] rfl
    (by decide) (by decide)

/-- C4 (amended): once a session is closed, `enqueue_http_packet` is a
no-op; `http_next_payload` however never consults the `closed` flag: on a
closed session it returns the same payload and leaves the same queue as on
the identical session with `closed = false` (in particular it still drains
and returns queued segments), and it returns empty bytes when the queue is
empty. -/
theorem c4_closed_enqueue_noop (maxPayload : Nat) (s : EngineIOSession)
    (hs : s.closed = true) (seg : List Char) :
    enqueue_http_packet s seg = s ∧
    (http_next_payload maxPayload s).1 =
      (http_next_payload maxPayload { s with closed := false }).1 ∧
    (http_next_payload maxPayload s).2.queue =
      (http_next_payload maxPayload { s with closed := false }).2.queue ∧
    (s.queue = [] → http_next_payload maxPayload s = ([], s)) := by
  refine ⟨?_, ?_, ?_, ?_⟩
  · simp [enqueue_http_packet, hs]
  · cases s with
    | mk q c ap =>
      cases q with
      | nil => rfl
      | cons h t => rfl
  · cases s with
    | mk q c ap =>
      cases q with
      | nil => rfl
      | cons h t => rfl
  · intro hq
    simp [http_next_payload, hq]

/-- Counterexample to C4 as stated: a closed session with `"6"` queued;
enqueue is indeed a no-op, but `http_next_payload` returns the queued
segment, not empty bytes. -/
theorem c4_counterexample :
    enqueue_http_packet ⟨[['6']], true, false⟩ ['2'] =
      ⟨[['6']], true, false⟩ ∧
    (http_next_payload MAX_PAYLOAD_BYTES ⟨[['6']], true, false⟩).1 ≠ [] := by
  decide

/-- Witness for C4's amended theorem: a closed session with `"6"` queued
drains exactly as the open one; a closed empty-queue session returns
empty. -/
theorem c4_closed_enqueue_noop_witness :
    enqueue_http_packet ⟨[['6']], true, false⟩ ['2'] =
      ⟨[['6']], true, false⟩ ∧
    (http_next_payload 7 ⟨[['6']], true, false⟩).1 =
      (http_next_payload 7 ⟨[['6']], false, false⟩).1 ∧
    (http_next_payload 7 ⟨[['6']], true, false⟩).2.queue =
      (http_next_payload 7 ⟨[['6']], false, false⟩).2.queue ∧
    http_next_payload 7 ⟨[], true, false⟩ = ([], ⟨[], true, false⟩) :=
  ⟨(c4_closed_enqueue_noop 7 ⟨[['6']], true, false⟩ rfl ['2']).1,
   (c4_closed_enqueue_noop 7 ⟨[['6']], true, false⟩ rfl ['2']).2.1,
   (c4_closed_enqueue_noop 7 ⟨[['6']], true, false⟩ rfl ['2']).2.2.1,
   (c4_closed_enqueue_noop 7 ⟨[], true, false⟩ rfl ['2']).2.2.2 rfl⟩

/-- C6: when the body fails to decode (and no concurrent POST is active,
so decoding is reached), the POST handler answers 400 and the session is
returned exactly as it was: nothing is enqueued, no packet is delivered,
and `closed` is unchanged — this holds for every application-side
delivery behaviour. -/
theorem c6_post_decode_error
    (deliver : EngineIOSession → Packet → EngineIOSession)
    (s : EngineIOSession) (body : List Nat) (e : List Char)
    (hap : s.active_post = false)
    (hdec : decode_http_payload body = .error e) :
    handle_post deliver s body = (400, s, []) := by
  cases s with
  | mk q c ap =>
    simp only at hap
    subst hap
    simp [handle_post, hdec]

/-- Witness for C6: POST body `0xFF` (invalid UTF-8) on a fresh session. -/
theorem c6_post_decode_error_witness :
    handle_post (fun s _ => s) ⟨[], false, false⟩ [255] =
      (400, ⟨[], false, false⟩, []) :=
  c6_post_decode_error (fun s _ => s) ⟨[], false, false⟩ [255]
    (String.toList "invalid utf-8") rfl rfl

theorem popAck_miss : ∀ (l : List (Nat × Nat)) (i : Nat),
    (∀ p ∈ l, p.1 ≠ i) → popAck l i = (none, l) := by
  intro l
  induction l with
  | nil => intro i h; rfl
  | cons p rest ih =>
    intro i h
    obtain ⟨k, cb⟩ := p
    have hk : k ≠ i := h (k, cb) (by simp)
    simp only [popAck, if_neg hk]
    rw [ih i (fun q hq => h q (by simp [hq]))]

theorem popAck_hit_rest : ∀ (l : List (Nat × Nat)) (i cb : Nat)
    (rest : List (Nat × Nat)), (l.map Prod.fst).Nodup →
    popAck l i = (some cb, rest) → ∀ p ∈ rest, p.1 ≠ i := by
  intro l
  induction l with
  | nil => intro i cb rest _ h; exact absurd h (by simp [popAck])
  | cons q t ih =>
    intro i cb rest hnd h
    obtain ⟨k, c⟩ := q
    simp only [List.map_cons, List.nodup_cons] at hnd
    by_cases hk : k = i
    · subst hk
      simp only [popAck, if_pos rfl] at h
      injection h with h1 h2
      subst h2
      intro p hp hpi
      exact hnd.1 (by
        rw [List.mem_map]
        exact ⟨p, hp, by rw [hpi]⟩)
    · simp only [popAck, if_neg hk] at h
      injection h with h1 h2
      intro p hp
      rw [← h2] at hp
      rcases List.mem_cons.mp hp with hq | hq
      · rw [hq]
        exact hk
      · exact ih i cb _ hnd.2 (by rw [← h1]) p hq

/-- C7 (amended): an inbound ACK whose id has a registered callback pops
that callback and invokes it with: the packet's data as-is when it is a
non-empty list; zero arguments when the data is falsy (absent data, 0,
false, the empty string, empty list/dict/bytes); the data wrapped in a
one-element list when it is truthy and not a list. -/
theorem c7_ack_invocation (pending : List (Nat × Nat))
    (pkt : SocketIOPacket) (i cb : Nat) (rest : List (Nat × Nat))
    (hid : pkt.id = some i) (hpop : popAck pending i = (some cb, rest)) :
    (pyFalsy pkt.data = true →
      handle_ack pending pkt = (rest, some (cb, []))) ∧
    (∀ xs, pkt.data = .arr xs → pyFalsy pkt.data = false →
      handle_ack pending pkt = (rest, some (cb, jarrToList xs))) ∧
    (pyFalsy pkt.data = false → (∀ xs, pkt.data ≠ .arr xs) →
      handle_ack pending pkt = (rest, some (cb, [pkt.data]))) := by
  refine ⟨?_, ?_, ?_⟩
  · intro hf
    simp [handle_ack, hid, hpop, hf]
  · intro xs hxs hf
    rw [hxs] at hf
    simp [handle_ack, hid, hpop, hf, hxs]
  · intro hf hnl
    simp only [handle_ack, hid, hpop, hf]
    cases hd : pkt.data with
    | arr xs => exact absurd hd (hnl xs)
    | null => simp [hd, pyFalsy] at hf
    | bool b => simp
    | num n => simp
    | str s => simp
    | bin b => simp
    | obj fs => simp

/-- Counterexample to C7 as stated: data `0` is not wrapped into `[0]` —
the callback is invoked with zero arguments. -/
theorem c7_counterexample :
    (handle_ack [(7, 42)] { type := 3, id := some 7, data := .num 0 }).2 =
      some (42, []) ∧
    (handle_ack [(7, 42)] { type := 3, id := some 7, data := .num 0 }).2 ≠
      some (42, [.num 0]) := by
  decide

/-- Witness for C7's amended theorem: truthy non-list data is wrapped. -/
theorem c7_ack_invocation_witness :
    handle_ack [(7, 42)] { type := 3, id := some 7, data := .num 5 } =
      ([], some (42, [.num 5])) :=
  (c7_ack_invocation [(7, 42)] { type := 3, id := some 7, data := .num 5 }
      7 42 [] rfl rfl).2.2 (by decide) (fun xs h => JData.noConfusion h)

/-- C9: pending ack callbacks are one-shot.  With unique pending ids (the
Python dict invariant), an ACK with id `i` removes the entry it invokes,
so a second ACK with the same id invokes no callback and leaves the
remaining pending entries exactly as they were. -/
theorem c9_acks_one_shot (pending : List (Nat × Nat)) (i cb : Nat)
    (rest : List (Nat × Nat)) (d d2 : JData)
    (hnd : (pending.map Prod.fst).Nodup)
    (hpop : popAck pending i = (some cb, rest)) :
    (handle_ack pending { type := 3, id := some i, data := d }).1 = rest ∧
    (handle_ack pending { type := 3, id := some i, data := d }).2.isSome ∧
    handle_ack rest { type := 3, id := some i, data := d2 } =
      (rest, none) := by
  refine ⟨by simp [handle_ack, hpop], by simp [handle_ack, hpop], ?_⟩
  have hmiss : popAck rest i = (none, rest) :=
    popAck_miss rest i (popAck_hit_rest pending i cb rest hnd hpop)
  simp [handle_ack, hmiss]

/-- Witness for C9 at a concrete pending table. -/
theorem c9_acks_one_shot_witness :
    (handle_ack [(3, 30), (7, 42)]
      { type := 3, id := some 3, data := .null }).1 = [(7, 42)] ∧
    (handle_ack [(3, 30), (7, 42)]
      { type := 3, id := some 3, data := .null }).2.isSome ∧
    handle_ack [(7, 42)] { type := 3, id := some 3, data := .bool true } =
      ([(7, 42)], none) :=
  c9_acks_one_shot [(3, 30), (7, 42)] 3 30 [(7, 42)] .null (.bool true)
    (by decide) rfl

/-! ### Reconstruction on malformed placeholders -/

mutual
theorem noPhReconV (atts : List (List Nat)) :
    ∀ d : JData, noPh d = true → walkRecon atts d = d := by
  intro d
  cases d with
  | null => intro h; rfl
  | bool b => intro h; rfl
  | num n => intro h; rfl
  | str s => intro h; rfl
  | bin bs => intro h; rfl
  | arr xs =>
    intro h
    simp only [walkRecon]
    rw [noPhReconA atts xs (by simpa [noPh] using h)]
  | obj fs =>
    intro h
    simp only [noPh, Bool.and_eq_true, Bool.not_eq_true'] at h
    simp only [walkRecon]
    rw [if_neg (by simp [h.1])]
    rw [noPhReconO atts fs h.2]
termination_by d => sizeOf d

theorem noPhReconA (atts : List (List Nat)) :
    ∀ xs : JArr, noPhA xs = true → walkReconA atts xs = xs := by
  intro xs
  cases xs with
  | anil => intro h; rfl
  | acons hd t =>
    intro h
    simp only [noPhA, Bool.and_eq_true] at h
    simp only [walkReconA]
    rw [noPhReconV atts hd h.1, noPhReconA atts t h.2]
termination_by xs => sizeOf xs

theorem noPhReconO (atts : List (List Nat)) :
    ∀ fs : JObj, noPhO fs = true → walkReconO atts fs = fs := by
  intro fs
  cases fs with
  | onil => intro h; rfl
  | ocons k v t =>
    intro h
    simp only [noPhO, Bool.and_eq_true] at h
    simp only [walkReconO]
    rw [noPhReconV atts v h.1, noPhReconO atts t h.2]
termination_by fs => sizeOf fs
end

/-- C10: `_reconstruct_data` is total and safe on malformed placeholders:
a dict carrying `"_placeholder": true` whose `"num"` is missing, not an
integer (Python `isinstance(num, int)`, so `true`/`false` count as
integers 1/0), or out of `[0, len(attachments))` becomes `null`; a valid
`num` yields the corresponding attachment; and a value containing no
placeholder-shaped dict is returned unchanged. -/
theorem c10_reconstruct_malformed (atts : List (List Nat)) (fs : JObj)
    (d : JData) :
    (isPhLike fs = true → objGet fs numKey = none →
      reconstruct_data (.obj fs) atts = .null) ∧
    (∀ v, isPhLike fs = true → objGet fs numKey = some v → pyInt v = none →
      reconstruct_data (.obj fs) atts = .null) ∧
    (∀ v i, isPhLike fs = true → objGet fs numKey = some v →
      pyInt v = some i → ¬(0 ≤ i ∧ i < (atts.length : Int)) →
      reconstruct_data (.obj fs) atts = .null) ∧
    (∀ v i, isPhLike fs = true → objGet fs numKey = some v →
      pyInt v = some i → 0 ≤ i → i < (atts.length : Int) →
      reconstruct_data (.obj fs) atts = .bin (atts.getD i.toNat [])) ∧
    (noPh d = true → reconstruct_data d atts = d) := by
  refine ⟨?_, ?_, ?_, ?_, ?_⟩
  · intro hph hnum
    simp [reconstruct_data, walkRecon, hph, hnum]
  · intro v hph hnum hpy
    simp [reconstruct_data, walkRecon, hph, hnum, hpy]
  · intro v i hph hnum hpy hrange
    simp only [reconstruct_data, walkRecon, hph, if_true, hnum, hpy]
    rw [if_neg hrange]
  · intro v i hph hnum hpy h0 h1
    simp only [reconstruct_data, walkRecon, hph, if_true, hnum, hpy]
    rw [if_pos ⟨h0, h1⟩]
  · exact noPhReconV atts d

/-- Witness for C10: a non-integer `num`, an out-of-range `num`, a valid
placeholder, and an untouched plain value. -/
theorem c10_reconstruct_malformed_witness :
    reconstruct_data (.obj (.ocons placeholderKey (.bool true)
      (.ocons numKey (.str ['x']) .onil))) [[1]] = .null ∧
    reconstruct_data (.obj (.ocons placeholderKey (.bool true)
      (.ocons numKey (.num 5) .onil))) [[1]] = .null ∧
    reconstruct_data (placeholderObj 0) [[7, 8]] = .bin [7, 8] ∧
    reconstruct_data (.arr (.acons (.num 3) .anil)) [[9]] =
      .arr (.acons (.num 3) .anil) :=
  ⟨(c10_reconstruct_malformed [[1]] (.ocons placeholderKey (.bool true)
      (.ocons numKey (.str ['x']) .onil)) .null).2.1 (.str ['x'])
      (by decide) rfl rfl,
   (c10_reconstruct_malformed [[1]] (.ocons placeholderKey (.bool true)
      (.ocons numKey (.num 5) .onil)) .null).2.2.1 (.num 5) 5
      (by decide) rfl rfl (by decide),
   (c10_reconstruct_malformed [[7, 8]] (.ocons placeholderKey (.bool true)
      (.ocons numKey (.num 0) .onil)) .null).2.2.2.1 (.num 0) 0
      (by decide) rfl rfl (by decide) (by decide),
   (c10_reconstruct_malformed [[9]] .onil
      (.arr (.acons (.num 3) .anil))).2.2.2.2 (by decide)⟩

/-- C8: a CONNECT for a `(eio sid, namespace)` pair that already has a
namespace-socket is silently ignored: the server state (socket table —
hence the socket's id, rooms, pending acks and connected flag — and the
id counter) is unchanged, and no effect (no CONNECT response, no
CONNECT_ERROR, no close) is produced. -/
theorem c8_duplicate_connect_ignored
    (deliver : NsSock → SocketIOPacket → NsSock × List ServerEffect)
    (st : ServerState) (sid : List Char) (pkt : SocketIOPacket)
    (handler : Option Bool) (sock : NsSock)
    (hty : pkt.type = SIO_CONNECT)
    (hns : findNs st.namespaces
      (if pkt.nsp = [] then DEFAULT_NAMESPACE else pkt.nsp) = some handler)
    (hsock : findSock st.sockets
      (sid, if pkt.nsp = [] then DEFAULT_NAMESPACE else pkt.nsp) =
        some sock) :
    handle_sio_packet deliver st sid pkt = (st, []) := by
  simp [handle_sio_packet, hns, hsock, hty]

/-- Witness for C8: a registered `/` namespace with an existing socket for
`("s", "/")` and a duplicate CONNECT. -/
theorem c8_duplicate_connect_ignored_witness :
    handle_sio_packet (fun s _ => (s, []))
      ⟨[(['/'], none)],
       [((['s'], ['/']), ⟨['s', '#', '0'], [], [], true⟩)], 1⟩
      ['s'] { type := 0, nsp := ['/'] } =
      (⟨[(['/'], none)],
        [((['s'], ['/']), ⟨['s', '#', '0'], [], [], true⟩)], 1⟩, []) :=
  c8_duplicate_connect_ignored (fun s _ => (s, []))
    ⟨[(['/'], none)],
     [((['s'], ['/']), ⟨['s', '#', '0'], [], [], true⟩)], 1⟩
    ['s'] { type := 0, nsp := ['/'] } none ⟨['s', '#', '0'], [], [], true⟩
    rfl rfl rfl

end Sio

